import Mathlib

/-!
Verification of the pluggable-json codec (src/src/index.js).

The JavaScript source is shallowly embedded below.  Strings are modelled as
`List Char`, JavaScript values as the inductive `Value α` (the parameter `α`
stands for foreign, non-JSON values such as class instances that registered
serializers may recognize; the code never inspects their structure other than
through a serializer, so they are modelled as atoms), exceptions as `Except`.
-/

/-- The fixed escape character of the codec (`const ESCAPE_CHAR = "^"`). -/
def ESCAPE_CHAR : Char := '^'

/-- Embedding of `_escapeSeparators(value)`:
`value.replace(new RegExp(escapeRegexp(this._separator), "g"),
`${ESCAPE_CHAR}${this._separator}`)` — every occurrence of the separator is
replaced by the escape character followed by the separator. -/
def _escapeSeparators (sep : Char) : List Char → List Char
  | [] => []
  | c :: rest =>
    if c = sep then ESCAPE_CHAR :: sep :: _escapeSeparators sep rest
    else c :: _escapeSeparators sep rest

/-- Embedding of the `.map` step of `_getComponentsFromSerializedString`:
`item.replace(new RegExp(`${escapeRegexp(ESCAPE_CHAR)}${escapeRegexp(this._separator)}`, "g"), this._separator)`
— each (escape char, separator) pair is replaced by the separator, scanning
left to right without overlap, exactly as a global regex replace does. -/
def _unescapeSeparators (sep : Char) : List Char → List Char
  | c1 :: c2 :: rest =>
    if c1 = ESCAPE_CHAR ∧ c2 = sep then sep :: _unescapeSeparators sep rest
    else c1 :: _unescapeSeparators sep (c2 :: rest)
  | l => l

/-- Embedding of `value.split(this._nonEscapedSeparator).reduce(...)` where
`_nonEscapedSeparator = new RegExp(`([^${escapeRegexp(ESCAPE_CHAR)}])${escapeRegexp(this._separator)}`)`.

`String.split` on the regex `([^^])SEP` cuts the string at every
left-to-right, non-overlapping occurrence of a non-escape character followed
by the separator, inserting the captured preceding character into the result
array; the `reduce` in the source then glues each captured character back onto
the piece before it.  The net effect, reproduced here as the single
two-character scan it amounts to, is: close the current component (keeping the
preceding character) at every separator not immediately preceded by the escape
character. -/
def splitComponents (sep : Char) (current : List Char) : List Char → List (List Char)
  | c1 :: c2 :: rest =>
    if c1 ≠ ESCAPE_CHAR ∧ c2 = sep then
      (current ++ [c1]) :: splitComponents sep [] rest
    else
      splitComponents sep (current ++ [c1]) (c2 :: rest)
  | l => [current ++ l]

/-- Auxiliary scan used in statements: does the string contain a "live"
separator, i.e. a two-character window whose first character is not the escape
character and whose second is the separator?  (This is what the regex
`([^^])SEP` can match.) -/
def hasLivePair (sep : Char) : List Char → Bool
  | c1 :: c2 :: rest =>
    (decide (c1 ≠ ESCAPE_CHAR) && decide (c2 = sep)) || hasLivePair sep (c2 :: rest)
  | _ => false

/-- JavaScript values: `null`, booleans, numbers (number arithmetic plays no
role in the codec, so they are carried as integers), strings, arrays, objects
(as insertion-ordered key/value lists; JavaScript objects never hold duplicate
keys), and foreign values `vext a` — instances of caller classes that only
registered serializers can interpret. -/
inductive Value (α : Type) where
  | vnull : Value α
  | vbool : Bool → Value α
  | vnum : Int → Value α
  | vstr : List Char → Value α
  | varr : List (Value α) → Value α
  | vobj : List (List Char × Value α) → Value α
  | vext : α → Value α

/-- A registered serializer, after construction-time validation: the four
required capabilities `type`, `isSerializable`, `serialize`, `deserialize`.
`deserialize` receives whatever JSON value sits at the payload position (the
source passes it through untyped), hence `Value α → Value α`. -/
structure Serializer (α : Type) where
  type : List Char
  isSerializable : Value α → Bool
  serialize : Value α → List Char
  deserialize : Value α → Value α

/-- A serializer descriptor as handed to the constructor, before validation:
each of the four required properties may be absent (`none` models a missing
object key). -/
structure SerializerDescriptor (α : Type) where
  type : Option (List Char)
  isSerializable : Option (Value α → Bool)
  serialize : Option (Value α → List Char)
  deserialize : Option (Value α → Value α)

/-- The ways an operation of the codec can throw.

* `configDuplicateType t`: `new Error("Multiple serializers seen for type " + t)`
  (the argument is the — possibly absent — `type` property of the offending
  descriptor);
* `configMissingProperties i`: `new Error("serializer " + i + " must have the
  following properties: type,isSerializable,serialize,deserialize")` — note the
  message carries only the index and the constant list of all required
  properties;
* `typeErrorDeserializeOfUndefined`: the `TypeError` raised by
  `this._serializers[type].deserialize(value)` when no serializer is registered
  under `type` (reading `.deserialize` of `undefined`); the engine's message
  does not mention `type`;
* `jsonParseError`: `JSON.parse` rejected the input text. -/
inductive PJError where
  | configDuplicateType : Option (List Char) → PJError
  | configMissingProperties : Nat → PJError
  | typeErrorDeserializeOfUndefined : PJError
  | jsonParseError : PJError
deriving DecidableEq

/-- The state a `PluggableJSON` instance carries: `this._serializers` (a plain
JavaScript object keyed by serializer type, modelled as the insertion-ordered
list of the registered serializers; validation guarantees the types are
distinct, so the reduce in the constructor never overwrites) and
`this._separator`. -/
structure PluggableJSON (α : Type) where
  _serializers : List (Serializer α)
  _separator : Char

/-- An ECMAScript array-index property key: a canonical decimal numeral whose
value is below `2^32 - 1`.  `Object.keys` (and hence underscore's `_.values`)
lists such keys first, in ascending numeric order, before all other string
keys in insertion order. -/
def arrayIndexOf (s : List Char) : Option Nat :=
  if s.isEmpty then none
  else if s.all Char.isDigit && (s == ['0'] || !(s.head? == some '0')) then
    let n := s.foldl (fun acc c => 10 * acc + (c.toNat - '0'.toNat)) 0
    if n < 2 ^ 32 - 1 then some n else none
  else none

/-- Insert into a list sorted by ascending numeric key. -/
def insertByIndex {β : Type} (x : Nat × β) : List (Nat × β) → List (Nat × β)
  | [] => [x]
  | y :: rest => if x.1 < y.1 then x :: y :: rest else y :: insertByIndex x rest

/-- The order in which `_.values(this._serializers)` enumerates the registry:
ECMAScript own-property order of the object built in the constructor —
array-index type names first in ascending numeric order, then the remaining
type names in insertion (registration) order. -/
def jsOwnValues {α : Type} (l : List (Serializer α)) : List (Serializer α) :=
  let indexed := l.filterMap (fun s => (arrayIndexOf s.type).map (fun n => (n, s)))
  (indexed.foldl (fun acc x => insertByIndex x acc) []).map Prod.snd
    ++ l.filter (fun s => (arrayIndexOf s.type).isNone)

/-- Embedding of `findSerializerForValue(value)`:
`_.values(this._serializers).find((serializer) => serializer.isSerializable(value))`. -/
def PluggableJSON.findSerializerForValue {α : Type} (p : PluggableJSON α) (value : Value α) :
    Option (Serializer α) :=
  (jsOwnValues p._serializers).find? (fun serializer => serializer.isSerializable value)

/-- Property access `this._serializers[type]`: lookup by type key (order
plays no role here since validated registries hold distinct types). -/
def PluggableJSON.lookupByType {α : Type} (p : PluggableJSON α) (type : List Char) :
    Option (Serializer α) :=
  p._serializers.find? (fun serializer => serializer.type == type)

/-- Embedding of `_getComponentsFromSerializedString(value)`: split at live
separators (see `splitComponents`), then unescape each component. -/
def PluggableJSON._getComponentsFromSerializedString {α : Type} (p : PluggableJSON α)
    (value : List Char) : List (List Char) :=
  (splitComponents p._separator [] value).map (_unescapeSeparators p._separator)

/-- A single JavaScript property assignment `obj[key] = val`: if the key is
already present its value is replaced in place (the key keeps its original
position), otherwise the pair is appended. -/
def jsObjAssign {β : Type} (obj : List (List Char × β)) (key : List Char) (val : β) :
    List (List Char × β) :=
  if key ∈ obj.map Prod.fst then
    obj.map (fun kv => if kv.1 = key then (kv.1, val) else kv)
  else obj ++ [(key, val)]

/-- Embedding of `_.object(pairs)`: build a JavaScript object from a pair
list by successive property assignment (later duplicate keys overwrite). -/
def jsObjectFromPairs {β : Type} (l : List (List Char × β)) : List (List Char × β) :=
  l.foldl (fun acc kv => jsObjAssign acc kv.1 kv.2) []

/-- A descriptor has all four required properties
(`_.difference(REQUIRED_SERIALIZER_PROPERTIES, Object.keys(serializer)).length === 0`). -/
def SerializerDescriptor.isComplete {α : Type} (d : SerializerDescriptor α) : Bool :=
  d.type.isSome && d.isSerializable.isSome && d.serialize.isSome && d.deserialize.isSome

/-- The loop body of `_validateSerializers`: for each descriptor, in order,
first the duplicate-type check against the types seen so far (a missing
`type` property participates as the key `undefined`), then the
required-properties check. -/
def validateLoop {α : Type} :
    List (SerializerDescriptor α) → Nat → List (Option (List Char)) → Except PJError Unit
  | [], _, _ => .ok ()
  | d :: rest, index, seen =>
    if d.type ∈ seen then .error (.configDuplicateType d.type)
    else if !d.isComplete then .error (.configMissingProperties index)
    else validateLoop rest (index + 1) (d.type :: seen)

/-- Embedding of `_validateSerializers(serializers)`. -/
def _validateSerializers {α : Type} (serializers : List (SerializerDescriptor α)) :
    Except PJError Unit :=
  validateLoop serializers 0 []

/-- Extraction of the four capabilities from a validated descriptor.  The
defaults are never reached: construction only gets here after
`_validateSerializers` verified every property is present. -/
def SerializerDescriptor.toSerializer {α : Type} (d : SerializerDescriptor α) : Serializer α where
  type := d.type.getD []
  isSerializable := d.isSerializable.getD (fun _ => false)
  serialize := d.serialize.getD (fun _ => [])
  deserialize := d.deserialize.getD (fun w => w)

/-- Embedding of the constructor `new PluggableJSON(serializers, separator)`:
validate, then build `this._serializers` (the reduce keyed by type; with the
validated, duplicate-free types this is the registration-ordered list) and
store the separator.  A validation throw aborts construction entirely. -/
def PluggableJSON.construct {α : Type} (serializers : List (SerializerDescriptor α))
    (separator : Char) : Except PJError (PluggableJSON α) := do
  _validateSerializers serializers
  .ok { _serializers := serializers.map SerializerDescriptor.toSerializer,
        _separator := separator }

/-- Nesting depth of a value, ignoring string contents; used only as the
termination measure of the mutually recursive tree walkers below. -/
def Value.depth {α : Type} : Value α → Nat
  | .varr items => 1 + (items.attach.map (fun x => x.1.depth)).foldr max 0
  | .vobj pairs => 1 + (pairs.attach.map (fun kv => kv.1.2.depth)).foldr max 0
  | _ => 0
termination_by v => sizeOf v
decreasing_by
  · simp_wf
    have := List.sizeOf_lt_of_mem x.2
    omega
  · simp_wf
    obtain ⟨⟨a, b⟩, hk⟩ := kv
    have h1 := List.sizeOf_lt_of_mem hk
    simp only [Prod.mk.sizeOf_spec] at h1 ⊢
    omega

mutual

/-- Embedding of `_serialize(value)`: if a serializer recognizes the value,
return `serializer.serialize(value)` (a bare string — no tag at this level);
arrays map through `serializeValueInArray`; objects map their pairs through
`serializeValueInObject` and are rebuilt with `_.object`; everything else is
returned unchanged.  (An unrecognized foreign value would be walked as a plain
object of its enumerable properties by underscore; foreign values are atoms
here, so that branch returns them unchanged — every claim below only concerns
values whose foreign parts are recognized by some serializer.) -/
def PluggableJSON._serialize {α : Type} (p : PluggableJSON α) (value : Value α) : Value α :=
  match p.findSerializerForValue value with
  | some serializer => .vstr (serializer.serialize value)
  | none =>
    match value with
    | .varr items => .varr (items.attach.map (fun x => p.serializeValueInArray x.1))
    | .vobj pairs =>
        .vobj (jsObjectFromPairs (pairs.attach.map
          (fun kv => p.serializeValueInObject kv.1.1 kv.1.2)))
    | w => w
termination_by 2 * value.depth
decreasing_by
  · simp_wf
    have hfold : ∀ (l : List Nat) (m : Nat), m ∈ l → m ≤ l.foldr max 0 := by
      intro l
      induction l with
      | nil => intro m h; cases h
      | cons a t ih =>
        intro m h
        simp only [List.foldr_cons]
        rcases List.mem_cons.mp h with rfl | h2
        · exact Nat.le_max_left _ _
        · exact le_trans (ih m h2) (Nat.le_max_right _ _)
    have hx := hfold (items.attach.map (fun y => y.1.depth)) x.1.depth
      (List.mem_map.mpr ⟨x, List.mem_attach _ _, rfl⟩)
    rw [Value.depth]
    omega
  · simp_wf
    have hfold : ∀ (l : List Nat) (m : Nat), m ∈ l → m ≤ l.foldr max 0 := by
      intro l
      induction l with
      | nil => intro m h; cases h
      | cons a t ih =>
        intro m h
        simp only [List.foldr_cons]
        rcases List.mem_cons.mp h with rfl | h2
        · exact Nat.le_max_left _ _
        · exact le_trans (ih m h2) (Nat.le_max_right _ _)
    have hx := hfold (pairs.attach.map (fun y => y.1.2.depth)) kv.1.2.depth
      (List.mem_map.mpr ⟨kv, List.mem_attach _ _, rfl⟩)
    rw [Value.depth]
    omega

/-- Embedding of `serializeValueInArray(value)`: a recognized value becomes the
single string `escape(type) + SEP + escape(serialized payload)`; a plain string
is escaped; anything else goes back through `_serialize`. -/
def PluggableJSON.serializeValueInArray {α : Type} (p : PluggableJSON α) (value : Value α) :
    Value α :=
  match p.findSerializerForValue value with
  | some serializer =>
      .vstr (_escapeSeparators p._separator serializer.type
        ++ p._separator :: _escapeSeparators p._separator (serializer.serialize value))
  | none =>
    match value with
    | .vstr s => .vstr (_escapeSeparators p._separator s)
    | w => p._serialize w
termination_by 2 * value.depth + 1
decreasing_by
  all_goals simp_wf

/-- Embedding of `serializeValueInObject(key, value)`: a recognized value is
stored under the key `escape(key) + SEP + escape(type)` with the bare
serialized payload as the value; otherwise the pair is
`(escape(key), _serialize(value))`. -/
def PluggableJSON.serializeValueInObject {α : Type} (p : PluggableJSON α) (key : List Char)
    (value : Value α) : List Char × Value α :=
  match p.findSerializerForValue value with
  | some serializer =>
      (_escapeSeparators p._separator key
         ++ p._separator :: _escapeSeparators p._separator serializer.type,
       .vstr (serializer.serialize value))
  | none => (_escapeSeparators p._separator key, p._serialize value)
termination_by 2 * value.depth + 1
decreasing_by
  all_goals simp_wf

end

mutual

/-- Embedding of `_deserialize(value, type)`.  `if (type)` is JavaScript
truthiness: both an absent `type` and the empty string fall through to the
structural branch.  With a truthy type, `this._serializers[type].deserialize(value)`
either applies the registered serializer or throws a `TypeError` (reading
`.deserialize` of `undefined`).  Structurally, arrays map through
`deserializeValueInArray`, objects map their pairs through
`deserializeValueInObject` and are rebuilt with `_.object`, and anything else
is returned unchanged. -/
def PluggableJSON._deserialize {α : Type} (p : PluggableJSON α) (value : Value α) :
    Option (List Char) → Except PJError (Value α)
  | some (c :: t) =>
    match p.lookupByType (c :: t) with
    | some serializer => .ok (serializer.deserialize value)
    | none => .error .typeErrorDeserializeOfUndefined
  | _ =>
    match value with
    | .varr items => do
        let xs ← items.attach.mapM (fun x => p.deserializeValueInArray x.1)
        return .varr xs
    | .vobj pairs => do
        let kvs ← pairs.attach.mapM (fun kv => p.deserializeValueInObject kv.1.1 kv.1.2)
        return .vobj (jsObjectFromPairs kvs)
    | w => .ok w
termination_by 2 * value.depth
decreasing_by
  · simp_wf
    have hfold : ∀ (l : List Nat) (m : Nat), m ∈ l → m ≤ l.foldr max 0 := by
      intro l
      induction l with
      | nil => intro m h; cases h
      | cons a t ih =>
        intro m h
        simp only [List.foldr_cons]
        rcases List.mem_cons.mp h with rfl | h2
        · exact Nat.le_max_left _ _
        · exact le_trans (ih m h2) (Nat.le_max_right _ _)
    have hx := hfold (items.attach.map (fun y => y.1.depth)) x.1.depth
      (List.mem_map.mpr ⟨x, List.mem_attach _ _, rfl⟩)
    rw [Value.depth]
    omega
  · simp_wf
    have hfold : ∀ (l : List Nat) (m : Nat), m ∈ l → m ≤ l.foldr max 0 := by
      intro l
      induction l with
      | nil => intro m h; cases h
      | cons a t ih =>
        intro m h
        simp only [List.foldr_cons]
        rcases List.mem_cons.mp h with rfl | h2
        · exact Nat.le_max_left _ _
        · exact le_trans (ih m h2) (Nat.le_max_right _ _)
    have hx := hfold (pairs.attach.map (fun y => y.1.2.depth)) kv.1.2.depth
      (List.mem_map.mpr ⟨kv, List.mem_attach _ _, rfl⟩)
    rw [Value.depth]
    omega

/-- Embedding of `deserializeValueInArray(value)`: strings are split into
components; a single component means a plain string — the source hands it to
`_deserialize(component)`, which returns a string argument unchanged, so that
call is written out here as `.ok (.vstr component)` (the termination measure
cannot see through the fresh string otherwise); two or more components
destructure as `[fieldType, fieldValue]` — any further components are
discarded — and go through `_deserialize(fieldValue, fieldType)`.  Non-strings
go back through `_deserialize`.  (`_getComponentsFromSerializedString` never
returns an empty list; that match arm is unreachable.) -/
def PluggableJSON.deserializeValueInArray {α : Type} (p : PluggableJSON α) (value : Value α) :
    Except PJError (Value α) :=
  match value with
  | .vstr s =>
    match p._getComponentsFromSerializedString s with
    | [component] => .ok (.vstr component)
    | fieldType :: fieldValue :: _ => p._deserialize (.vstr fieldValue) (some fieldType)
    | [] => .ok (.vstr [])
  | w => p._deserialize w none
termination_by 2 * value.depth + 1
decreasing_by
  all_goals simp_wf
  all_goals simp [Value.depth]

/-- Embedding of `deserializeValueInObject(key, value)`: the key is split into
components; a single component `[fieldName]` pairs the unescaped name with
`_deserialize(value)`; otherwise `[fieldName, fieldType]` (further components
discarded) pairs the name with `_deserialize(value, fieldType)`.
(The empty-components arm is unreachable.) -/
def PluggableJSON.deserializeValueInObject {α : Type} (p : PluggableJSON α) (key : List Char)
    (value : Value α) : Except PJError (List Char × Value α) :=
  match p._getComponentsFromSerializedString key with
  | [fieldName] => (p._deserialize value none).map (fun r => (fieldName, r))
  | fieldName :: fieldType :: _ =>
      (p._deserialize value (some fieldType)).map (fun r => (fieldName, r))
  | [] => (p._deserialize value none).map (fun r => ([], r))
termination_by 2 * value.depth + 1
decreasing_by
  all_goals simp_wf

end

/-- Modelled from the spec: the repository delegates text handling to an
"external collaborator: a text codec providing `parse(text) -> nativeTree` and
`stringify(nativeTree) -> text` ... assumed correct and out of scope"
(`JSON.stringify`/`JSON.parse` in the source).  The concrete grammar of the
text is out of scope, so the codec is modelled by an explicit, simple,
verified-correct pair: a tagged, length-prefixed encoding (`jsonStringify`)
and its parser (`parseValue` below).  Like the real `JSON.parse`, the parser
rejects text that is not canonical output of the encoder (for example a bare
payload such as `x`).  Natural numbers are written in unary as `*…*;`. -/
def natUnary (n : Nat) : List Char := List.replicate n '*' ++ [';']

/-- Integer body of a number encoding: sign, then unary magnitude. -/
def intCode : Int → List Char
  | .ofNat m => '+' :: natUnary m
  | .negSucc m => '-' :: natUnary m

/-- Modelled from the spec (see `natUnary`): the `stringify` half of the
external text codec.  Foreign values (`vext`) have no text form — they never
appear in encoder output whose foreign parts were all recognized. -/
def jsonStringify {α : Type} : Value α → List Char
  | .vnull => ['n']
  | .vbool true => ['t']
  | .vbool false => ['f']
  | .vnum n => 'i' :: intCode n
  | .vstr s => 's' :: (natUnary s.length ++ s)
  | .varr items => 'a' :: (natUnary items.length
      ++ (items.attach.map (fun x => jsonStringify x.1)).flatten)
  | .vobj pairs => 'o' :: (natUnary pairs.length
      ++ (pairs.attach.map
            (fun kv => 'k' :: (natUnary kv.1.1.length ++ kv.1.1 ++ jsonStringify kv.1.2))).flatten)
  | .vext _ => ['u']
termination_by v => sizeOf v
decreasing_by
  · simp_wf
    have := List.sizeOf_lt_of_mem x.2
    omega
  · simp_wf
    obtain ⟨⟨a, b⟩, hk⟩ := kv
    have h1 := List.sizeOf_lt_of_mem hk
    simp only [Prod.mk.sizeOf_spec] at h1 ⊢
    omega

/-- Read a unary numeral (`*…*;`) off the front of the text. -/
def readUnary : List Char → Option (Nat × List Char)
  | '*' :: r =>
    match readUnary r with
    | some (n, r2) => some (n + 1, r2)
    | none => none
  | ';' :: r => some (0, r)
  | _ => none

mutual

/-- Modelled from the spec (see `natUnary`): the `parse` half of the external
text codec, fuelled for termination.  Returns the parsed value and the
remaining text, or `none` on non-canonical input. -/
def parseValue (α : Type) : Nat → List Char → Option (Value α × List Char)
  | 0, _ => none
  | _ + 1, 'n' :: r => some (.vnull, r)
  | _ + 1, 't' :: r => some (.vbool true, r)
  | _ + 1, 'f' :: r => some (.vbool false, r)
  | _ + 1, 'i' :: '+' :: r => (readUnary r).map (fun x => (.vnum (Int.ofNat x.1), x.2))
  | _ + 1, 'i' :: '-' :: r => (readUnary r).map (fun x => (.vnum (Int.negSucc x.1), x.2))
  | _ + 1, 's' :: r => do
      let (n, r2) ← readUnary r
      if n ≤ r2.length then some (.vstr (r2.take n), r2.drop n) else none
  | fuel + 1, 'a' :: r => do
      let (n, r2) ← readUnary r
      let (items, r3) ← parseItems α fuel n r2
      some (.varr items, r3)
  | fuel + 1, 'o' :: r => do
      let (n, r2) ← readUnary r
      let (pairs, r3) ← parsePairs α fuel n r2
      some (.vobj pairs, r3)
  | _ + 1, _ => none

/-- Parse `count` consecutive array items (see `parseValue`). -/
def parseItems (α : Type) : Nat → Nat → List Char → Option (List (Value α) × List Char)
  | _, 0, r => some ([], r)
  | 0, _ + 1, _ => none
  | fuel + 1, count + 1, r => do
      let (v, r2) ← parseValue α fuel r
      let (items, r3) ← parseItems α fuel count r2
      some (v :: items, r3)

/-- Parse `count` consecutive object fields (see `parseValue`). -/
def parsePairs (α : Type) :
    Nat → Nat → List Char → Option (List (List Char × Value α) × List Char)
  | _, 0, r => some ([], r)
  | 0, _ + 1, _ => none
  | fuel + 1, count + 1, 'k' :: r => do
      let (klen, r2) ← readUnary r
      if klen ≤ r2.length then do
        let (v, r3) ← parseValue α fuel (r2.drop klen)
        let (pairs, r4) ← parsePairs α fuel count r3
        some ((r2.take klen, v) :: pairs, r4)
      else none
  | _ + 1, _ + 1, _ => none

end

/-- Modelled from the spec (see `natUnary`): `JSON.parse(text)` — parse a
whole text, requiring it to be consumed entirely. -/
def jsonParseTop (α : Type) (s : List Char) : Option (Value α) :=
  match parseValue α s.length s with
  | some (v, []) => some v
  | _ => none

/-- Embedding of `serialize(value, {toObject = false})`:
`toObject ? serializedObject : JSON.stringify(serializedObject)` — the result
of `JSON.stringify` is a string, hence `vstr` of the text. -/
def PluggableJSON.serialize {α : Type} (p : PluggableJSON α) (value : Value α)
    (toObject : Bool) : Value α :=
  let serializedObject := p._serialize value
  if toObject then serializedObject else .vstr (jsonStringify serializedObject)

/-- Embedding of `deserialize(value)`:
`this._deserialize(_.isObject(value) ? value : JSON.parse(value))`.
`_.isObject` is true of arrays, objects and foreign class instances; a string
goes through `JSON.parse` (a throw there is `jsonParseError`); the remaining
scalars (numbers, booleans, `null`) are untouched by
`JSON.parse(String(scalar))`, so they pass straight through. -/
def PluggableJSON.deserialize {α : Type} (p : PluggableJSON α) (value : Value α) :
    Except PJError (Value α) :=
  match value with
  | .varr items => p._deserialize (.varr items) none
  | .vobj pairs => p._deserialize (.vobj pairs) none
  | .vext a => p._deserialize (.vext a) none
  | .vstr s =>
    match jsonParseTop α s with
    | some tree => p._deserialize tree none
    | none => .error .jsonParseError
  | w => p._deserialize w none

/-! ### Conditions under which the round trip holds -/

/-- A key is harmless for the tagged key encoding: non-empty and not ending in
the escape character (a key ending in `^` would glue onto the separator that
the encoder appends after it and kill the live boundary). -/
def keyOKB (k : List Char) : Bool :=
  !k.isEmpty && !(k.getLast? == some ESCAPE_CHAR)

/-- A well-behaved registry: distinct serializer types (guaranteed by the
validated constructor), each type non-empty and not ending in the escape
character, and each serializer's `deserialize` a left inverse of its
`serialize` on the values it recognizes (the contract serializer authors are
expected to satisfy). -/
def RegistryOK {α : Type} (p : PluggableJSON α) : Prop :=
  (p._serializers.map Serializer.type).Nodup ∧
    ∀ s ∈ p._serializers, s.type ≠ [] ∧ s.type.getLast? ≠ some ESCAPE_CHAR ∧
      ∀ v : Value α, s.isSerializable v = true → s.deserialize (.vstr (s.serialize v)) = v

/-- Values for which the codec can round-trip: foreign values must be
recognized by some serializer, object key lists must be duplicate-free, and a
key whose value is recognized must satisfy `keyOKB` (it is about to receive a
type tag). -/
def safeValue {α : Type} (p : PluggableJSON α) (v : Value α) : Bool :=
  if (p.findSerializerForValue v).isSome then true
  else
    match v with
    | .vext _ => false
    | .varr items => items.attach.all (fun x => safeValue p x.1)
    | .vobj pairs =>
        decide ((pairs.map Prod.fst).Nodup) &&
          pairs.attach.all (fun kv =>
            safeValue p kv.1.2 &&
              (!(p.findSerializerForValue kv.1.2).isSome || keyOKB kv.1.1))
    | _ => true
termination_by sizeOf v
decreasing_by
  · simp_wf
    have := List.sizeOf_lt_of_mem x.2
    omega
  · simp_wf
    obtain ⟨⟨a, b⟩, hk⟩ := kv
    have h1 := List.sizeOf_lt_of_mem hk
    simp only [Prod.mk.sizeOf_spec] at h1 ⊢
    omega


/-- A value containing no foreign (`vext`) node; only such values have a text
form under the modelled external codec. -/
def extFree {α : Type} : Value α → Bool
  | .vext _ => false
  | .varr items => items.attach.all (fun x => extFree x.1)
  | .vobj pairs => pairs.attach.all (fun kv => extFree kv.1.2)
  | _ => true
termination_by v => sizeOf v
decreasing_by
  · simp_wf
    have := List.sizeOf_lt_of_mem x.2
    omega
  · simp_wf
    obtain ⟨⟨a, b⟩, hk⟩ := kv
    have h1 := List.sizeOf_lt_of_mem hk
    simp only [Prod.mk.sizeOf_spec] at h1 ⊢
    omega


/-! ### Concrete instances used to settle the claims -/

/-- A serializer in the style of the repository's `durationSerializer` tests:
it recognizes exactly the foreign values (class instances), writes the payload
`10m`, and rebuilds the instance. -/
def durationLike : Serializer Unit where
  type := ['d']
  isSerializable := fun v => match v with | .vext _ => true | _ => false
  serialize := fun _ => ['1', '0', 'm']
  deserialize := fun _ => .vext ()

/-- A codec instance with the `durationLike` serializer and the default
separator. -/
def pDur : PluggableJSON Unit := ⟨[durationLike], ':'⟩

/-- A codec instance with no serializers and the default separator
(`new PluggableJSON()`). -/
def pEmpty : PluggableJSON Unit := ⟨[], ':'⟩

/-- A serializer registered under the type name `t` that recognizes nothing
(used only on the decode side) and decodes to the payload it is given. -/
def serT : Serializer Unit where
  type := ['t']
  isSerializable := fun _ => false
  serialize := fun _ => []
  deserialize := fun w => w

/-- A codec instance whose registry holds only `serT`. -/
def pT : PluggableJSON Unit := ⟨[serT], ':'⟩

/-- A serializer with the array-index type name `1` that claims every value. -/
def serOne : Serializer Unit where
  type := ['1']
  isSerializable := fun _ => true
  serialize := fun _ => ['a']
  deserialize := fun w => w

/-- A serializer with the array-index type name `0` that claims every value. -/
def serZero : Serializer Unit where
  type := ['0']
  isSerializable := fun _ => true
  serialize := fun _ => ['b']
  deserialize := fun w => w

/-- A registry whose two serializers carry numeric type names, registered in
the order `1`, `0`. -/
def pNum : PluggableJSON Unit := ⟨[serOne, serZero], ':'⟩

/-- A serializer with the alphabetic type name `a` that claims every value. -/
def serA : Serializer Unit where
  type := ['a']
  isSerializable := fun _ => true
  serialize := fun _ => []
  deserialize := fun w => w

/-- A serializer with the alphabetic type name `b` that claims every value. -/
def serB : Serializer Unit where
  type := ['b']
  isSerializable := fun _ => true
  serialize := fun _ => []
  deserialize := fun w => w

/-- Two overlapping serializers with non-numeric type names, registered in
the order `a`, `b`. -/
def pAlpha : PluggableJSON Unit := ⟨[serA, serB], ':'⟩

/-- A serializer that recognizes arrays themselves and writes the payload
`x`. -/
def serArrClaim : Serializer Unit where
  type := ['e']
  isSerializable := fun v => match v with | .varr _ => true | _ => false
  serialize := fun _ => ['x']
  deserialize := fun w => w

/-- A codec instance whose single serializer claims whole arrays. -/
def pArr : PluggableJSON Unit := ⟨[serArrClaim], ':'⟩


/-- A complete descriptor with type `x`. -/
def dComplete : SerializerDescriptor Unit :=
  ⟨some ['x'], some (fun _ => true), some (fun _ => []), some (fun w => w)⟩

/-- A descriptor that shares the type `x` and is missing `isSerializable`,
`serialize` and `deserialize`. -/
def dDupIncomplete : SerializerDescriptor Unit := ⟨some ['x'], none, none, none⟩

/-- A descriptor missing only `serialize`. -/
def dMissingSerialize : SerializerDescriptor Unit :=
  ⟨some ['y'], some (fun _ => true), none, some (fun w => w)⟩

/-- A descriptor missing only `deserialize`. -/
def dMissingDeserialize : SerializerDescriptor Unit :=
  ⟨some ['z'], some (fun _ => true), some (fun _ => []), none⟩


theorem foldr_max_le_of_mem {n : Nat} : ∀ {l : List Nat}, n ∈ l → n ≤ l.foldr max 0 := by
  intro l
  induction l with
  | nil => intro h; cases h
  | cons a t ih =>
    intro h
    simp only [List.foldr_cons]
    rcases List.mem_cons.mp h with rfl | h'
    · exact Nat.le_max_left _ _
    · exact le_trans (ih h') (Nat.le_max_right _ _)

theorem Value.depth_lt_varr {α : Type} {x : Value α} {items : List (Value α)}
    (h : x ∈ items) : x.depth < (Value.varr items).depth := by
  rw [Value.depth]
  have : x.depth ∈ items.attach.map (fun y => y.1.depth) :=
    List.mem_map.mpr ⟨⟨x, h⟩, List.mem_attach _ _, rfl⟩
  have := foldr_max_le_of_mem this
  omega

theorem Value.depth_lt_vobj {α : Type} {kv : List Char × Value α}
    {pairs : List (List Char × Value α)} (h : kv ∈ pairs) :
    kv.2.depth < (Value.vobj pairs).depth := by
  rw [Value.depth]
  have : kv.2.depth ∈ pairs.attach.map (fun y => y.1.2.depth) :=
    List.mem_map.mpr ⟨⟨kv, h⟩, List.mem_attach _ _, rfl⟩
  have := foldr_max_le_of_mem this
  omega


example : _escapeSeparators ':' ['a', ':', 'b'] = ['a', '^', ':', 'b'] := by decide
example : _unescapeSeparators ':' ['a', '^', ':', 'b'] = ['a', ':', 'b'] := by decide
example : _unescapeSeparators ':' ['^', '^', ':'] = ['^', ':'] := by decide
example : splitComponents ':' [] ['t', ':', 'a', '^', ':', 'b'] = [['t'], ['a', '^', ':', 'b']] := by decide
example : splitComponents ':' [] ['t', ':', 'a', ':', 'b'] = [['t'], ['a'], ['b']] := by decide
example : splitComponents ':' [] [':', 'a', 'b'] = [[':', 'a', 'b']] := by decide
example : splitComponents ':' [] ['a', 'b', ':'] = [['a', 'b'], []] := by decide
example : splitComponents ':' [] ['k', '^', ':', 'x'] = [['k', '^', ':', 'x']] := by decide

/-! ### Properties of the escaper -/

theorem unescape_escape (sep : Char) :
    ∀ s : List Char, _unescapeSeparators sep (_escapeSeparators sep s) = s := by
  intro s
  induction s with
  | nil => rfl
  | cons c rest ih =>
    rw [_escapeSeparators]
    by_cases hc : c = sep
    · subst hc
      rw [if_pos rfl, _unescapeSeparators, if_pos ⟨rfl, rfl⟩, ih]
    · rw [if_neg hc]
      cases rest with
      | nil => rfl
      | cons d rest2 =>
        by_cases hd : d = sep
        · have he : _escapeSeparators sep (d :: rest2) =
              ESCAPE_CHAR :: sep :: _escapeSeparators sep rest2 := by
            rw [_escapeSeparators, if_pos hd]
          rw [he, _unescapeSeparators, if_neg (fun h => hc (h.1.trans h.2)), ← he, ih]
        · have he : _escapeSeparators sep (d :: rest2) =
              d :: _escapeSeparators sep rest2 := by
            rw [_escapeSeparators, if_neg hd]
          rw [he, _unescapeSeparators, if_neg (fun h => hd h.2), ← he, ih]

theorem escape_injective (sep : Char) {a b : List Char}
    (h : _escapeSeparators sep a = _escapeSeparators sep b) : a = b := by
  have := unescape_escape sep a
  rw [h, unescape_escape sep b] at this
  exact this.symm

theorem escape_eq_nil_iff (sep : Char) (s : List Char) :
    _escapeSeparators sep s = [] ↔ s = [] := by
  cases s with
  | nil => simp [_escapeSeparators]
  | cons c rest =>
    simp only [_escapeSeparators]
    by_cases hc : c = sep
    · simp [if_pos hc]
    · simp [if_neg hc]

theorem escape_head_ne_sep {sep : Char} (hsep : sep ≠ ESCAPE_CHAR) (s : List Char) :
    (_escapeSeparators sep s).head? ≠ some sep := by
  cases s with
  | nil => simp [_escapeSeparators]
  | cons c rest =>
    simp only [_escapeSeparators]
    by_cases hc : c = sep
    · simp only [if_pos hc, List.head?_cons]
      exact fun h => hsep (Option.some.inj h).symm
    · simp only [if_neg hc, List.head?_cons]
      exact fun h => hc (Option.some.inj h)

theorem splitComponents_escape {sep : Char} (hsep : sep ≠ ESCAPE_CHAR) :
    ∀ (s acc : List Char),
      splitComponents sep acc (_escapeSeparators sep s) = [acc ++ _escapeSeparators sep s] := by
  intro s
  induction s with
  | nil => intro acc; rfl
  | cons c rest ih =>
    intro acc
    by_cases hc : c = sep
    · have he : _escapeSeparators sep (c :: rest) =
          ESCAPE_CHAR :: sep :: _escapeSeparators sep rest := by
        rw [_escapeSeparators, if_pos hc]
      rw [he, splitComponents, if_neg (fun h => h.1 rfl)]
      cases hE : _escapeSeparators sep rest with
      | nil => simp [splitComponents]
      | cons e tail =>
        have hne : e ≠ sep := by
          have h2 := escape_head_ne_sep hsep rest
          rw [hE] at h2
          intro h
          exact h2 (by simp [h])
        rw [splitComponents, if_neg (fun h => hne h.2), ← hE, ih]
        simp
    · have he : _escapeSeparators sep (c :: rest) = c :: _escapeSeparators sep rest := by
        rw [_escapeSeparators, if_neg hc]
      rw [he]
      cases hE : _escapeSeparators sep rest with
      | nil => simp [splitComponents]
      | cons e tail =>
        have hne : e ≠ sep := by
          have h2 := escape_head_ne_sep hsep rest
          rw [hE] at h2
          intro h
          exact h2 (by simp [h])
        rw [splitComponents, if_neg (fun h => hne h.2), ← hE, ih]
        simp

theorem splitComponents_tagged {sep : Char} (hsep : sep ≠ ESCAPE_CHAR) :
    ∀ (t : List Char), t ≠ [] → t.getLast? ≠ some ESCAPE_CHAR →
      ∀ (acc w : List Char),
        splitComponents sep acc (_escapeSeparators sep t ++ sep :: w) =
          (acc ++ _escapeSeparators sep t) :: splitComponents sep [] w := by
  intro t
  induction t with
  | nil => intro h; exact absurd rfl h
  | cons c t2 ih =>
    intro _ hlast acc w
    cases t2 with
    | nil =>
      by_cases hc : c = sep
      · have he : _escapeSeparators sep [c] = [ESCAPE_CHAR, sep] := by
          rw [_escapeSeparators, if_pos hc, _escapeSeparators]
        rw [he, List.cons_append, List.cons_append, List.nil_append,
          splitComponents, if_neg (fun h => h.1 rfl),
          splitComponents, if_pos ⟨hsep, rfl⟩]
        simp
      · have hce : c ≠ ESCAPE_CHAR := by
          intro h
          exact hlast (by simp [h])
        have he : _escapeSeparators sep [c] = [c] := by
          rw [_escapeSeparators, if_neg hc, _escapeSeparators]
        rw [he, List.cons_append, List.nil_append,
          splitComponents, if_pos ⟨hce, rfl⟩]
    | cons d t3 =>
      have hlast2 : (d :: t3).getLast? ≠ some ESCAPE_CHAR := by
        rwa [List.getLast?_cons_cons] at hlast
      have hne2 : (d :: t3) ≠ [] := by simp
      cases hE : _escapeSeparators sep (d :: t3) with
      | nil => exact absurd ((escape_eq_nil_iff sep _).mp hE) hne2
      | cons e tail =>
        have hnee : e ≠ sep := by
          have h2 := escape_head_ne_sep hsep (d :: t3)
          rw [hE] at h2
          intro h
          exact h2 (by simp [h])
        by_cases hc : c = sep
        · have he : _escapeSeparators sep (c :: d :: t3) =
              ESCAPE_CHAR :: sep :: _escapeSeparators sep (d :: t3) := by
            rw [_escapeSeparators, if_pos hc]
          rw [he, hE, List.cons_append, List.cons_append, List.cons_append,
            splitComponents, if_neg (fun h => h.1 rfl),
            splitComponents, if_neg (fun h => hnee h.2), ← List.cons_append, ← hE,
            ih hne2 hlast2]
          simp
        · have he : _escapeSeparators sep (c :: d :: t3) =
              c :: _escapeSeparators sep (d :: t3) := by
            rw [_escapeSeparators, if_neg hc]
          rw [he, hE, List.cons_append, List.cons_append,
            splitComponents, if_neg (fun h => hnee h.2), ← List.cons_append, ← hE,
            ih hne2 hlast2]
          simp

theorem split_of_no_live {sep : Char} :
    ∀ (s : List Char), hasLivePair sep s = false →
      ∀ acc, splitComponents sep acc s = [acc ++ s] := by
  intro s
  induction s with
  | nil => intro _ acc; rfl
  | cons c1 rest ih =>
    cases rest with
    | nil => intro _ acc; rfl
    | cons c2 rest2 =>
      intro h acc
      rw [hasLivePair] at h
      obtain ⟨ha, hb⟩ := Bool.or_eq_false_iff.mp h
      have h1 : ¬(c1 ≠ ESCAPE_CHAR ∧ c2 = sep) := by
        intro ⟨hp, hq⟩
        simp [hp, hq] at ha
      rw [splitComponents, if_neg h1, ih hb]
      simp

theorem getComponents_escape {α : Type} (p : PluggableJSON α)
    (hsep : p._separator ≠ ESCAPE_CHAR) (s : List Char) :
    p._getComponentsFromSerializedString (_escapeSeparators p._separator s) = [s] := by
  rw [PluggableJSON._getComponentsFromSerializedString,
    splitComponents_escape hsep s []]
  simp [unescape_escape]

theorem getComponents_tagged {α : Type} (p : PluggableJSON α)
    (hsep : p._separator ≠ ESCAPE_CHAR) (t : List Char) (h1 : t ≠ [])
    (h2 : t.getLast? ≠ some ESCAPE_CHAR) (v : List Char) :
    p._getComponentsFromSerializedString
      (_escapeSeparators p._separator t
        ++ p._separator :: _escapeSeparators p._separator v) = [t, v] := by
  rw [PluggableJSON._getComponentsFromSerializedString,
    splitComponents_tagged hsep t h1 h2 [] _,
    splitComponents_escape hsep v []]
  simp [unescape_escape]

theorem getComponents_tagged_two {α : Type} (p : PluggableJSON α)
    (hsep : p._separator ≠ ESCAPE_CHAR) (t m : List Char) (ht1 : t ≠ [])
    (ht2 : t.getLast? ≠ some ESCAPE_CHAR) (hm1 : m ≠ [])
    (hm2 : m.getLast? ≠ some ESCAPE_CHAR) (v : List Char) :
    p._getComponentsFromSerializedString
      (_escapeSeparators p._separator t
        ++ p._separator :: (_escapeSeparators p._separator m
        ++ p._separator :: _escapeSeparators p._separator v)) = [t, m, v] := by
  rw [PluggableJSON._getComponentsFromSerializedString,
    splitComponents_tagged hsep t ht1 ht2 [] _,
    splitComponents_tagged hsep m hm1 hm2 [] _,
    splitComponents_escape hsep v []]
  simp [unescape_escape]

/-! ### Registry lemmas -/

theorem mem_insertByIndex {β : Type} {x y : Nat × β} :
    ∀ {l : List (Nat × β)}, x ∈ insertByIndex y l → x = y ∨ x ∈ l := by
  intro l
  induction l with
  | nil =>
    intro h
    rw [insertByIndex] at h
    rcases List.mem_singleton.mp h with h2
    exact Or.inl h2
  | cons z rest ih =>
    intro h
    rw [insertByIndex] at h
    by_cases hlt : y.1 < z.1
    · rw [if_pos hlt] at h
      rcases List.mem_cons.mp h with h2 | h2
      · exact Or.inl h2
      · exact Or.inr h2
    · rw [if_neg hlt] at h
      rcases List.mem_cons.mp h with h2 | h2
      · exact Or.inr (List.mem_cons.mpr (Or.inl h2))
      · rcases ih h2 with h3 | h3
        · exact Or.inl h3
        · exact Or.inr (List.mem_cons.mpr (Or.inr h3))

theorem mem_foldl_insertByIndex {β : Type} {x : Nat × β} :
    ∀ (ls : List (Nat × β)) (acc : List (Nat × β)),
      x ∈ ls.foldl (fun a y => insertByIndex y a) acc → x ∈ acc ∨ x ∈ ls := by
  intro ls
  induction ls with
  | nil => intro acc h; exact Or.inl h
  | cons y rest ih =>
    intro acc h
    rcases ih (insertByIndex y acc) h with h2 | h2
    · rcases mem_insertByIndex h2 with h3 | h3
      · exact Or.inr (List.mem_cons.mpr (Or.inl h3))
      · exact Or.inl h3
    · exact Or.inr (List.mem_cons.mpr (Or.inr h2))

theorem mem_of_jsOwnValues {α : Type} {s : Serializer α} {l : List (Serializer α)}
    (h : s ∈ jsOwnValues l) : s ∈ l := by
  rw [jsOwnValues] at h
  rcases List.mem_append.mp h with h2 | h2
  · obtain ⟨x, hx, hxs⟩ := List.mem_map.mp h2
    rcases mem_foldl_insertByIndex _ [] hx with h3 | h3
    · cases h3
    · obtain ⟨a, ha, hfa⟩ := List.mem_filterMap.mp h3
      cases hoa : arrayIndexOf a.type with
      | none => rw [hoa] at hfa; cases hfa
      | some n =>
        rw [hoa] at hfa
        have : (n, a) = x := by simpa using hfa
        rw [← this] at hxs
        simpa [← hxs] using ha
  · exact List.mem_of_mem_filter h2

theorem jsOwnValues_of_no_index {α : Type} {l : List (Serializer α)}
    (h : ∀ s ∈ l, arrayIndexOf s.type = none) : jsOwnValues l = l := by
  rw [jsOwnValues]
  have h1 : l.filterMap (fun s => (arrayIndexOf s.type).map (fun n => (n, s))) = [] := by
    rw [List.filterMap_eq_nil_iff]
    intro a ha
    rw [h a ha]
    rfl
  have h2 : l.filter (fun s => (arrayIndexOf s.type).isNone) = l := by
    rw [List.filter_eq_self]
    intro a ha
    rw [h a ha]
    rfl
  rw [h1, h2]
  rfl

theorem findSerializerForValue_spec {α : Type} {p : PluggableJSON α} {v : Value α}
    {s : Serializer α} (h : p.findSerializerForValue v = some s) :
    s.isSerializable v = true ∧ s ∈ p._serializers := by
  rw [PluggableJSON.findSerializerForValue] at h
  have h1 := List.find?_some h
  exact ⟨by simpa using h1, mem_of_jsOwnValues (List.mem_of_find?_eq_some h)⟩

theorem find_type_eq {α : Type} :
    ∀ {l : List (Serializer α)}, (l.map Serializer.type).Nodup →
      ∀ {s : Serializer α}, s ∈ l → l.find? (fun x => x.type == s.type) = some s := by
  intro l
  induction l with
  | nil => intro _ s hs; cases hs
  | cons a rest ih =>
    intro hnd s hs
    rw [List.map_cons, List.nodup_cons] at hnd
    by_cases ha : a.type = s.type
    · have hsa : s = a := by
        rcases List.mem_cons.mp hs with h2 | h2
        · exact h2
        · exact absurd (ha ▸ List.mem_map_of_mem Serializer.type h2) hnd.1
      rw [List.find?_cons_of_pos _ (by simp [ha]), hsa]
    · have hsr : s ∈ rest := by
        rcases List.mem_cons.mp hs with h2 | h2
        · exact absurd (by rw [h2]) ha
        · exact h2
      rw [List.find?_cons_of_neg _ (by simp [ha]), ih hnd.2 hsr]

theorem lookupByType_eq_of_mem {α : Type} {p : PluggableJSON α}
    (hnd : (p._serializers.map Serializer.type).Nodup) {s : Serializer α}
    (hs : s ∈ p._serializers) : p.lookupByType s.type = some s := by
  rw [PluggableJSON.lookupByType]
  exact find_type_eq hnd hs

/-! ### Object-rebuild and traversal helpers -/

theorem foldl_jsObjAssign_append {β : Type} :
    ∀ (l acc : List (List Char × β)), ((acc ++ l).map Prod.fst).Nodup →
      l.foldl (fun a kv => jsObjAssign a kv.1 kv.2) acc = acc ++ l := by
  intro l
  induction l with
  | nil => intro acc _; simp
  | cons kv rest ih =>
    intro acc hnd
    have hnotin : kv.1 ∉ acc.map Prod.fst := by
      intro hmem
      rw [List.map_append] at hnd
      have h1 := List.disjoint_of_nodup_append hnd
      exact h1 hmem (List.mem_map_of_mem Prod.fst (List.mem_cons_self kv rest))
    have hassign : jsObjAssign acc kv.1 kv.2 = acc ++ [kv] := by
      rw [jsObjAssign, if_neg hnotin]
    rw [List.foldl_cons, hassign, ih (acc ++ [kv]) (by simpa using hnd)]
    simp

theorem jsObjectFromPairs_eq_self {β : Type} (l : List (List Char × β))
    (h : (l.map Prod.fst).Nodup) : jsObjectFromPairs l = l := by
  rw [jsObjectFromPairs, foldl_jsObjAssign_append l [] (by simpa using h)]
  rfl

theorem mapM_ok_of_forall {E β γ : Type} :
    ∀ (l : List β) (f : β → Except E γ) (g : β → γ),
      (∀ x ∈ l, f x = .ok (g x)) → l.mapM f = .ok (l.map g) := by
  intro l
  induction l with
  | nil => intro f g _; rfl
  | cons a rest ih =>
    intro f g h
    rw [List.mapM_cons, h a (by simp), ih f g (fun x hx => h x (by simp [hx]))]
    rfl

theorem mapM_map_comp {E β γ δ : Type} :
    ∀ (l : List β) (g : β → γ) (f : γ → Except E δ),
      (l.map g).mapM f = l.mapM (fun x => f (g x)) := by
  intro l
  induction l with
  | nil => intro g f; rfl
  | cons a t ih =>
    intro g f
    rw [List.map_cons, List.mapM_cons, List.mapM_cons, ih]

theorem attach_mapM_eq {E β γ : Type} :
    ∀ (l : List β) (f : β → Except E γ),
      l.attach.mapM (fun x => f x.1) = l.mapM f := by
  intro l
  induction l with
  | nil => intro f; rfl
  | cons a t ih =>
    intro f
    rw [List.attach_cons, List.mapM_cons, mapM_map_comp, ih, List.mapM_cons]

theorem map_mapM_roundtrip {E β γ : Type} :
    ∀ (l : List β) (F : β → γ) (f : γ → Except E β),
      (∀ x ∈ l, f (F x) = .ok x) → (l.map F).mapM f = .ok l := by
  intro l
  induction l with
  | nil => intro F f _; rfl
  | cons a t ih =>
    intro F f h
    rw [List.map_cons, List.mapM_cons, h a (by simp), ih F f (fun x hx => h x (by simp [hx]))]
    rfl

/-! ### Unfolding lemmas for the tree walkers -/

theorem serialize_found {α : Type} {p : PluggableJSON α} {v : Value α} {s : Serializer α}
    (h : p.findSerializerForValue v = some s) : p._serialize v = .vstr (s.serialize v) := by
  cases v <;>
    first
      | rw [PluggableJSON._serialize.eq_1, h]
      | rw [PluggableJSON._serialize.eq_2, h]
      | rw [PluggableJSON._serialize.eq_3 _ _ (fun _ hh => Value.noConfusion hh)
            (fun _ hh => Value.noConfusion hh), h]

theorem serialize_varr {α : Type} {p : PluggableJSON α} {items : List (Value α)}
    (h : p.findSerializerForValue (.varr items) = none) :
    p._serialize (.varr items) = .varr (items.map p.serializeValueInArray) := by
  rw [PluggableJSON._serialize.eq_1, h, List.attach_map_val items p.serializeValueInArray]

theorem serialize_vobj {α : Type} {p : PluggableJSON α} {pairs : List (List Char × Value α)}
    (h : p.findSerializerForValue (.vobj pairs) = none) :
    p._serialize (.vobj pairs) =
      .vobj (jsObjectFromPairs (pairs.map (fun kv => p.serializeValueInObject kv.1 kv.2))) := by
  rw [PluggableJSON._serialize.eq_2, h,
    List.attach_map_val pairs (fun kv => p.serializeValueInObject kv.1 kv.2)]

theorem serialize_other {α : Type} {p : PluggableJSON α} {v : Value α}
    (h : p.findSerializerForValue v = none)
    (h1 : ∀ items : List (Value α), v ≠ .varr items)
    (h2 : ∀ pairs : List (List Char × Value α), v ≠ .vobj pairs) :
    p._serialize v = v := by
  rw [PluggableJSON._serialize.eq_3 _ _ (fun items hh => h1 items hh)
    (fun pairs hh => h2 pairs hh), h]

theorem serializeValueInArray_found {α : Type} {p : PluggableJSON α} {v : Value α}
    {s : Serializer α} (h : p.findSerializerForValue v = some s) :
    p.serializeValueInArray v =
      .vstr (_escapeSeparators p._separator s.type
        ++ p._separator :: _escapeSeparators p._separator (s.serialize v)) := by
  cases v <;>
    first
      | rw [PluggableJSON.serializeValueInArray.eq_1, h]
      | rw [PluggableJSON.serializeValueInArray.eq_2 _ _ (fun _ hh => Value.noConfusion hh), h]

theorem serializeValueInArray_vstr {α : Type} {p : PluggableJSON α} {s0 : List Char}
    (h : p.findSerializerForValue (.vstr s0) = none) :
    p.serializeValueInArray (.vstr s0) = .vstr (_escapeSeparators p._separator s0) := by
  rw [PluggableJSON.serializeValueInArray.eq_1, h]

theorem serializeValueInArray_other {α : Type} {p : PluggableJSON α} {v : Value α}
    (h : p.findSerializerForValue v = none) (h1 : ∀ s0 : List Char, v ≠ .vstr s0) :
    p.serializeValueInArray v = p._serialize v := by
  rw [PluggableJSON.serializeValueInArray.eq_2 _ _ (fun s0 hh => h1 s0 hh), h]

theorem serializeValueInObject_found {α : Type} {p : PluggableJSON α} {k : List Char}
    {v : Value α} {s : Serializer α} (h : p.findSerializerForValue v = some s) :
    p.serializeValueInObject k v =
      (_escapeSeparators p._separator k
         ++ p._separator :: _escapeSeparators p._separator s.type,
       .vstr (s.serialize v)) := by
  rw [PluggableJSON.serializeValueInObject.eq_def, h]

theorem serializeValueInObject_none {α : Type} {p : PluggableJSON α} {k : List Char}
    {v : Value α} (h : p.findSerializerForValue v = none) :
    p.serializeValueInObject k v = (_escapeSeparators p._separator k, p._serialize v) := by
  rw [PluggableJSON.serializeValueInObject.eq_def, h]

theorem deserialize_typed_found {α : Type} {p : PluggableJSON α} {c : Char} {t : List Char}
    {s : Serializer α} (h : p.lookupByType (c :: t) = some s) (v : Value α) :
    p._deserialize v (some (c :: t)) = .ok (s.deserialize v) := by
  simp only [PluggableJSON._deserialize.eq_def, h]

theorem deserialize_typed_missing {α : Type} {p : PluggableJSON α} {c : Char} {t : List Char}
    (h : p.lookupByType (c :: t) = none) (v : Value α) :
    p._deserialize v (some (c :: t)) = .error .typeErrorDeserializeOfUndefined := by
  simp only [PluggableJSON._deserialize.eq_def, h]

theorem deserialize_plain_scalar {α : Type} (p : PluggableJSON α) {v : Value α}
    (h1 : ∀ items : List (Value α), v ≠ .varr items)
    (h2 : ∀ pairs : List (List Char × Value α), v ≠ .vobj pairs)
    (ot : Option (List Char)) (hot : ot = none ∨ ot = some []) :
    p._deserialize v ot = .ok v := by
  rcases hot with rfl | rfl
  · rw [PluggableJSON._deserialize.eq_def]
    cases v with
    | varr items => exact absurd rfl (h1 items)
    | vobj pairs => exact absurd rfl (h2 pairs)
    | _ => rfl
  · rw [PluggableJSON._deserialize.eq_def]
    cases v with
    | varr items => exact absurd rfl (h1 items)
    | vobj pairs => exact absurd rfl (h2 pairs)
    | _ => rfl

theorem deserialize_plain_varr {α : Type} (p : PluggableJSON α) (items : List (Value α)) :
    p._deserialize (.varr items) none =
      (do
        let xs ← items.mapM p.deserializeValueInArray
        pure (Value.varr xs)) := by
  simp only [PluggableJSON._deserialize.eq_def]
  rw [attach_mapM_eq items p.deserializeValueInArray]

theorem deserialize_plain_vobj {α : Type} (p : PluggableJSON α)
    (pairs : List (List Char × Value α)) :
    p._deserialize (.vobj pairs) none =
      (do
        let kvs ← pairs.mapM (fun kv => p.deserializeValueInObject kv.1 kv.2)
        pure (Value.vobj (jsObjectFromPairs kvs))) := by
  simp only [PluggableJSON._deserialize.eq_def]
  rw [attach_mapM_eq pairs (fun kv => p.deserializeValueInObject kv.1 kv.2)]

theorem deserializeValueInArray_vstr {α : Type} (p : PluggableJSON α) (s : List Char) :
    p.deserializeValueInArray (.vstr s) =
      match p._getComponentsFromSerializedString s with
      | [component] => .ok (.vstr component)
      | fieldType :: fieldValue :: _ => p._deserialize (.vstr fieldValue) (some fieldType)
      | [] => .ok (.vstr []) := by
  rw [PluggableJSON.deserializeValueInArray.eq_def]

theorem deserializeValueInArray_other {α : Type} (p : PluggableJSON α) {v : Value α}
    (h1 : ∀ s0 : List Char, v ≠ .vstr s0) :
    p.deserializeValueInArray v = p._deserialize v none := by
  rw [PluggableJSON.deserializeValueInArray.eq_def]
  cases v with
  | vstr s0 => exact absurd rfl (h1 s0)
  | _ => rfl

theorem keyOKB_spec {k : List Char} (h : keyOKB k = true) :
    k ≠ [] ∧ k.getLast? ≠ some ESCAPE_CHAR := by
  rw [keyOKB, Bool.and_eq_true] at h
  constructor
  · intro hk
    rw [hk] at h
    simp at h
  · intro hk
    rw [hk] at h
    simp at h

theorem safeValue_varr_elim {α : Type} {p : PluggableJSON α} {items : List (Value α)}
    (hf : p.findSerializerForValue (.varr items) = none)
    (hs : safeValue p (.varr items) = true) : ∀ x ∈ items, safeValue p x = true := by
  rw [safeValue.eq_def, hf] at hs
  simp only [Option.isSome_none, Bool.false_eq_true, if_false] at hs
  intro x hx
  have := List.all_eq_true.mp hs ⟨x, hx⟩ (List.mem_attach items ⟨x, hx⟩)
  simpa using this

theorem safeValue_vobj_elim {α : Type} {p : PluggableJSON α}
    {pairs : List (List Char × Value α)}
    (hf : p.findSerializerForValue (.vobj pairs) = none)
    (hs : safeValue p (.vobj pairs) = true) :
    (pairs.map Prod.fst).Nodup ∧
      ∀ kv ∈ pairs, safeValue p kv.2 = true ∧
        ((p.findSerializerForValue kv.2).isSome = true → keyOKB kv.1 = true) := by
  rw [safeValue.eq_def, hf] at hs
  simp only [Option.isSome_none, Bool.false_eq_true, if_false, Bool.and_eq_true] at hs
  refine ⟨by simpa using hs.1, ?_⟩
  intro kv hkv
  have := List.all_eq_true.mp hs.2 ⟨kv, hkv⟩ (List.mem_attach pairs ⟨kv, hkv⟩)
  simp only [Bool.and_eq_true, Bool.or_eq_true] at this
  refine ⟨this.1, ?_⟩
  intro hsome
  rcases this.2 with h2 | h2
  · rw [hsome] at h2
    simp at h2
  · exact h2

theorem encodedKey_cases {α : Type} {p : PluggableJSON α} (k : List Char) (v : Value α) :
    (p.serializeValueInObject k v).1 = _escapeSeparators p._separator k ∨
      ∃ s : Serializer α, p.findSerializerForValue v = some s ∧
        (p.serializeValueInObject k v).1 =
          _escapeSeparators p._separator k
            ++ p._separator :: _escapeSeparators p._separator s.type := by
  cases hf : p.findSerializerForValue v with
  | none => exact Or.inl (by rw [serializeValueInObject_none hf])
  | some s => exact Or.inr ⟨s, rfl, by rw [serializeValueInObject_found hf]⟩

theorem encodedKey_inj {α : Type} {p : PluggableJSON α} (hsep : p._separator ≠ ESCAPE_CHAR)
    {kv1 kv2 : List Char × Value α}
    (hok1 : (p.findSerializerForValue kv1.2).isSome = true → keyOKB kv1.1 = true)
    (hok2 : (p.findSerializerForValue kv2.2).isSome = true → keyOKB kv2.1 = true)
    (heq : (p.serializeValueInObject kv1.1 kv1.2).1 = (p.serializeValueInObject kv2.1 kv2.2).1) :
    kv1.1 = kv2.1 := by
  have hcomps := congrArg p._getComponentsFromSerializedString heq
  rcases @encodedKey_cases α p kv1.1 kv1.2 with h1 | ⟨s1, hf1, h1⟩ <;>
    rcases @encodedKey_cases α p kv2.1 kv2.2 with h2 | ⟨s2, hf2, h2⟩
  · rw [h1, h2] at heq
    exact escape_injective _ heq
  · obtain ⟨hk2a, hk2b⟩ := keyOKB_spec (hok2 (by rw [hf2]; rfl))
    rw [h1, h2, getComponents_escape p hsep, getComponents_tagged p hsep kv2.1 hk2a hk2b]
      at hcomps
    simp at hcomps
  · obtain ⟨hk1a, hk1b⟩ := keyOKB_spec (hok1 (by rw [hf1]; rfl))
    rw [h1, h2, getComponents_escape p hsep, getComponents_tagged p hsep kv1.1 hk1a hk1b]
      at hcomps
    simp at hcomps
  · obtain ⟨hk1a, hk1b⟩ := keyOKB_spec (hok1 (by rw [hf1]; rfl))
    obtain ⟨hk2a, hk2b⟩ := keyOKB_spec (hok2 (by rw [hf2]; rfl))
    rw [h1, h2, getComponents_tagged p hsep kv1.1 hk1a hk1b,
      getComponents_tagged p hsep kv2.1 hk2a hk2b] at hcomps
    exact (List.cons.injEq _ _ _ _ ▸ hcomps).1

/-- Core round-trip lemma, proved for the three mutually recursive
encode/decode pairs simultaneously by strong induction on the value depth. -/
theorem roundtrip_main {α : Type} (p : PluggableJSON α) (hsep : p._separator ≠ ESCAPE_CHAR)
    (hreg : RegistryOK p) :
    ∀ n : Nat, ∀ v : Value α, 2 * v.depth + 2 ≤ n → safeValue p v = true →
      ((p.findSerializerForValue v = none → p._deserialize (p._serialize v) none = .ok v)
        ∧ p.deserializeValueInArray (p.serializeValueInArray v) = .ok v
        ∧ ∀ k : List Char,
            ((p.findSerializerForValue v).isSome = true → keyOKB k = true) →
            p.deserializeValueInObject (p.serializeValueInObject k v).1
              (p.serializeValueInObject k v).2 = .ok (k, v)) := by
  intro n
  induction n using Nat.strong_induction_on with
  | _ n ih =>
    intro v hn hsafe
    cases hfind : p.findSerializerForValue v with
    | some s =>
      obtain ⟨hser, hmem⟩ := findSerializerForValue_spec hfind
      obtain ⟨htne, htlast, hrt⟩ := hreg.2 s hmem
      have hdeser_tagged : p._deserialize (.vstr (s.serialize v)) (some s.type) = .ok v := by
        obtain ⟨c, t', hct⟩ := List.exists_cons_of_ne_nil htne
        have hlk : p.lookupByType s.type = some s := lookupByType_eq_of_mem hreg.1 hmem
        rw [hct] at hlk
        rw [hct, deserialize_typed_found hlk, hrt v hser]
      refine ⟨fun hnone => (by simp [hfind] at hnone), ?_, ?_⟩
      · rw [serializeValueInArray_found hfind, deserializeValueInArray_vstr,
          getComponents_tagged p hsep s.type htne htlast (s.serialize v)]
        exact hdeser_tagged
      · intro k hk
        obtain ⟨hk1, hk2⟩ := keyOKB_spec (hk rfl)
        rw [serializeValueInObject_found hfind]
        simp only [PluggableJSON.deserializeValueInObject.eq_def]
        rw [getComponents_tagged p hsep k hk1 hk2 s.type]
        show Except.map (fun r => (k, r))
          (p._deserialize (.vstr (s.serialize v)) (some s.type)) = .ok (k, v)
        rw [hdeser_tagged]
        rfl
    | none =>
      cases v with
      | vext a =>
        rw [safeValue.eq_def, hfind] at hsafe
        simp at hsafe
      | vnull =>
        have hone : p._deserialize Value.vnull none = .ok Value.vnull :=
          deserialize_plain_scalar p (fun _ h => Value.noConfusion h)
            (fun _ h => Value.noConfusion h) none (Or.inl rfl)
        have hser0 : p._serialize Value.vnull = Value.vnull :=
          serialize_other hfind (fun _ h => Value.noConfusion h) (fun _ h => Value.noConfusion h)
        refine ⟨fun _ => by rw [hser0]; exact hone, ?_, ?_⟩
        · rw [serializeValueInArray_other hfind (fun _ h => Value.noConfusion h), hser0,
            deserializeValueInArray_other p (fun _ h => Value.noConfusion h)]
          exact hone
        · intro k _
          rw [serializeValueInObject_none hfind, hser0]
          simp only [PluggableJSON.deserializeValueInObject.eq_def]
          rw [getComponents_escape p hsep k]
          show Except.map (fun r => (k, r)) (p._deserialize (Value.vnull) none) = .ok (k, Value.vnull)
          rw [hone]
          rfl
      | vbool b =>
        have hone : p._deserialize (Value.vbool b) none = .ok (Value.vbool b) :=
          deserialize_plain_scalar p (fun _ h => Value.noConfusion h)
            (fun _ h => Value.noConfusion h) none (Or.inl rfl)
        have hser0 : p._serialize (Value.vbool b) = Value.vbool b :=
          serialize_other hfind (fun _ h => Value.noConfusion h) (fun _ h => Value.noConfusion h)
        refine ⟨fun _ => by rw [hser0]; exact hone, ?_, ?_⟩
        · rw [serializeValueInArray_other hfind (fun _ h => Value.noConfusion h), hser0,
            deserializeValueInArray_other p (fun _ h => Value.noConfusion h)]
          exact hone
        · intro k _
          rw [serializeValueInObject_none hfind, hser0]
          simp only [PluggableJSON.deserializeValueInObject.eq_def]
          rw [getComponents_escape p hsep k]
          show Except.map (fun r => (k, r)) (p._deserialize (Value.vbool b) none) = .ok (k, Value.vbool b)
          rw [hone]
          rfl
      | vnum m =>
        have hone : p._deserialize (Value.vnum m) none = .ok (Value.vnum m) :=
          deserialize_plain_scalar p (fun _ h => Value.noConfusion h)
            (fun _ h => Value.noConfusion h) none (Or.inl rfl)
        have hser0 : p._serialize (Value.vnum m) = Value.vnum m :=
          serialize_other hfind (fun _ h => Value.noConfusion h) (fun _ h => Value.noConfusion h)
        refine ⟨fun _ => by rw [hser0]; exact hone, ?_, ?_⟩
        · rw [serializeValueInArray_other hfind (fun _ h => Value.noConfusion h), hser0,
            deserializeValueInArray_other p (fun _ h => Value.noConfusion h)]
          exact hone
        · intro k _
          rw [serializeValueInObject_none hfind, hser0]
          simp only [PluggableJSON.deserializeValueInObject.eq_def]
          rw [getComponents_escape p hsep k]
          show Except.map (fun r => (k, r)) (p._deserialize (Value.vnum m) none) = .ok (k, Value.vnum m)
          rw [hone]
          rfl
      | vstr s0 =>
        have hone : p._deserialize (Value.vstr s0) none = .ok (Value.vstr s0) :=
          deserialize_plain_scalar p (fun _ h => Value.noConfusion h)
            (fun _ h => Value.noConfusion h) none (Or.inl rfl)
        have hser0 : p._serialize (Value.vstr s0) = Value.vstr s0 :=
          serialize_other hfind (fun _ h => Value.noConfusion h) (fun _ h => Value.noConfusion h)
        refine ⟨fun _ => by rw [hser0]; exact hone, ?_, ?_⟩
        · rw [serializeValueInArray_vstr hfind, deserializeValueInArray_vstr,
            getComponents_escape p hsep s0]
        · intro k _
          rw [serializeValueInObject_none hfind, hser0]
          simp only [PluggableJSON.deserializeValueInObject.eq_def]
          rw [getComponents_escape p hsep k]
          show Except.map (fun r => (k, r)) (p._deserialize (Value.vstr s0) none) = .ok (k, Value.vstr s0)
          rw [hone]
          rfl
      | varr items =>
        have hmemsafe := safeValue_varr_elim hfind hsafe
        have hpoint : ∀ x ∈ items,
            p.deserializeValueInArray (p.serializeValueInArray x) = .ok x := by
          intro x hx
          have hd := Value.depth_lt_varr hx
          exact (ih (2 * x.depth + 2) (by omega) x (le_refl _) (hmemsafe x hx)).2.1
        have hmain : p._deserialize (p._serialize (.varr items)) none = .ok (.varr items) := by
          rw [serialize_varr hfind, deserialize_plain_varr,
            map_mapM_roundtrip items p.serializeValueInArray p.deserializeValueInArray hpoint]
          rfl
        refine ⟨fun _ => hmain, ?_, ?_⟩
        · rw [serializeValueInArray_other hfind (fun _ h => Value.noConfusion h),
            serialize_varr hfind,
            deserializeValueInArray_other p (fun _ h => Value.noConfusion h),
            ← serialize_varr hfind]
          exact hmain
        · intro k _
          rw [serializeValueInObject_none hfind]
          simp only [PluggableJSON.deserializeValueInObject.eq_def]
          rw [getComponents_escape p hsep k]
          show Except.map (fun r => (k, r))
            (p._deserialize (p._serialize (.varr items)) none) = .ok (k, .varr items)
          rw [hmain]
          rfl
      | vobj pairs =>
        obtain ⟨hnd, hkvs⟩ := safeValue_vobj_elim hfind hsafe
        have hpoint : ∀ kv ∈ pairs,
            p.deserializeValueInObject (p.serializeValueInObject kv.1 kv.2).1
              (p.serializeValueInObject kv.1 kv.2).2 = .ok kv := by
          intro kv hkv
          have hd := Value.depth_lt_vobj hkv
          have := (ih (2 * kv.2.depth + 2) (by omega) kv.2 (le_refl _)
            (hkvs kv hkv).1).2.2 kv.1 (hkvs kv hkv).2
          exact this
        have hencnd : ((pairs.map (fun kv => p.serializeValueInObject kv.1 kv.2)).map
            Prod.fst).Nodup := by
          have hnd1 : pairs.Pairwise (fun a b => a.1 ≠ b.1) := List.pairwise_map.mp hnd
          have hnd2 : pairs.Pairwise (fun a b =>
              (p.serializeValueInObject a.1 a.2).1 ≠ (p.serializeValueInObject b.1 b.2).1) := by
            refine hnd1.imp_of_mem ?_
            intro a b ha hb hne he
            exact hne (encodedKey_inj hsep (hkvs a ha).2 (hkvs b hb).2 he)
          rw [List.map_map]
          exact List.pairwise_map.mpr hnd2
        have hobjenc : jsObjectFromPairs
              (pairs.map (fun kv => p.serializeValueInObject kv.1 kv.2)) =
            pairs.map (fun kv => p.serializeValueInObject kv.1 kv.2) :=
          jsObjectFromPairs_eq_self _ hencnd
        have hmain : p._deserialize (p._serialize (.vobj pairs)) none = .ok (.vobj pairs) := by
          rw [serialize_vobj hfind, hobjenc, deserialize_plain_vobj,
            map_mapM_roundtrip pairs (fun kv => p.serializeValueInObject kv.1 kv.2)
              (fun kv => p.deserializeValueInObject kv.1 kv.2) hpoint]
          show Except.ok (Value.vobj (jsObjectFromPairs pairs)) = Except.ok (Value.vobj pairs)
          rw [jsObjectFromPairs_eq_self pairs hnd]
        refine ⟨fun _ => hmain, ?_, ?_⟩
        · rw [serializeValueInArray_other hfind (fun _ h => Value.noConfusion h),
            serialize_vobj hfind,
            deserializeValueInArray_other p (fun _ h => Value.noConfusion h),
            ← serialize_vobj hfind]
          exact hmain
        · intro k _
          rw [serializeValueInObject_none hfind]
          simp only [PluggableJSON.deserializeValueInObject.eq_def]
          rw [getComponents_escape p hsep k]
          show Except.map (fun r => (k, r))
            (p._deserialize (p._serialize (.vobj pairs)) none) = .ok (k, .vobj pairs)
          rw [hmain]
          rfl

theorem extFree_vnull {α : Type} : extFree (Value.vnull : Value α) = true := by
  simp [extFree]

theorem extFree_vbool {α : Type} (b : Bool) : extFree (Value.vbool b : Value α) = true := by
  simp [extFree]

theorem extFree_vnum {α : Type} (m : Int) : extFree (Value.vnum m : Value α) = true := by
  simp [extFree]

theorem extFree_vstr {α : Type} (s : List Char) : extFree (Value.vstr s : Value α) = true := by
  simp [extFree]

theorem extFree_varr {α : Type} {items : List (Value α)}
    (h : ∀ x ∈ items, extFree x = true) : extFree (Value.varr items) = true := by
  rw [extFree]
  rw [List.all_eq_true]
  intro x _
  exact h x.1 x.2

theorem extFree_vobj {α : Type} {pairs : List (List Char × Value α)}
    (h : ∀ kv ∈ pairs, extFree kv.2 = true) : extFree (Value.vobj pairs) = true := by
  rw [extFree]
  rw [List.all_eq_true]
  intro kv _
  exact h kv.1 kv.2

/-- The encoder only emits foreign-free trees on safe input: every recognized
value is replaced by a string, and `safeValue` rules out unrecognized foreign
values. -/
theorem extFree_serialize {α : Type} (p : PluggableJSON α)
    (hsep : p._separator ≠ ESCAPE_CHAR) :
    ∀ n : Nat, ∀ v : Value α, 2 * v.depth + 2 ≤ n → safeValue p v = true →
      ((p.findSerializerForValue v = none → extFree (p._serialize v) = true)
        ∧ extFree (p.serializeValueInArray v) = true
        ∧ ∀ k : List Char, extFree (p.serializeValueInObject k v).2 = true) := by
  intro n
  induction n using Nat.strong_induction_on with
  | _ n ih =>
    intro v hn hsafe
    cases hfind : p.findSerializerForValue v with
    | some s =>
      refine ⟨fun hnone => (by simp [hfind] at hnone), ?_, ?_⟩
      · rw [serializeValueInArray_found hfind]
        exact extFree_vstr _
      · intro k
        rw [serializeValueInObject_found hfind]
        exact extFree_vstr _
    | none =>
      cases v with
      | vext a =>
        rw [safeValue.eq_def, hfind] at hsafe
        simp at hsafe
      | vnull =>
        have hser0 : p._serialize Value.vnull = Value.vnull :=
          serialize_other hfind (fun _ h => Value.noConfusion h) (fun _ h => Value.noConfusion h)
        exact ⟨fun _ => by rw [hser0]; exact extFree_vnull,
          by rw [serializeValueInArray_other hfind (fun _ h => Value.noConfusion h), hser0]
             exact extFree_vnull,
          fun k => by rw [serializeValueInObject_none hfind, hser0]; exact extFree_vnull⟩
      | vbool b =>
        have hser0 : p._serialize (Value.vbool b) = Value.vbool b :=
          serialize_other hfind (fun _ h => Value.noConfusion h) (fun _ h => Value.noConfusion h)
        exact ⟨fun _ => by rw [hser0]; exact extFree_vbool b,
          by rw [serializeValueInArray_other hfind (fun _ h => Value.noConfusion h), hser0]
             exact extFree_vbool b,
          fun k => by rw [serializeValueInObject_none hfind, hser0]; exact extFree_vbool b⟩
      | vnum m =>
        have hser0 : p._serialize (Value.vnum m) = Value.vnum m :=
          serialize_other hfind (fun _ h => Value.noConfusion h) (fun _ h => Value.noConfusion h)
        exact ⟨fun _ => by rw [hser0]; exact extFree_vnum m,
          by rw [serializeValueInArray_other hfind (fun _ h => Value.noConfusion h), hser0]
             exact extFree_vnum m,
          fun k => by rw [serializeValueInObject_none hfind, hser0]; exact extFree_vnum m⟩
      | vstr s0 =>
        have hser0 : p._serialize (Value.vstr s0) = Value.vstr s0 :=
          serialize_other hfind (fun _ h => Value.noConfusion h) (fun _ h => Value.noConfusion h)
        exact ⟨fun _ => by rw [hser0]; exact extFree_vstr s0,
          by rw [serializeValueInArray_vstr hfind]; exact extFree_vstr _,
          fun k => by rw [serializeValueInObject_none hfind, hser0]; exact extFree_vstr s0⟩
      | varr items =>
        have hmemsafe := safeValue_varr_elim hfind hsafe
        have hpoint : ∀ x ∈ items, extFree (p.serializeValueInArray x) = true := by
          intro x hx
          have hd := Value.depth_lt_varr hx
          exact (ih (2 * x.depth + 2) (by omega) x (le_refl _) (hmemsafe x hx)).2.1
        have hmain : extFree (p._serialize (.varr items)) = true := by
          rw [serialize_varr hfind]
          refine extFree_varr ?_
          intro y hy
          obtain ⟨x, hx, rfl⟩ := List.mem_map.mp hy
          exact hpoint x hx
        refine ⟨fun _ => hmain, ?_, fun k => ?_⟩
        · rw [serializeValueInArray_other hfind (fun _ h => Value.noConfusion h)]
          exact hmain
        · rw [serializeValueInObject_none hfind]
          exact hmain
      | vobj pairs =>
        obtain ⟨hnd, hkvs⟩ := safeValue_vobj_elim hfind hsafe
        have hpoint : ∀ kv ∈ pairs,
            extFree (p.serializeValueInObject kv.1 kv.2).2 = true := by
          intro kv hkv
          have hd := Value.depth_lt_vobj hkv
          exact (ih (2 * kv.2.depth + 2) (by omega) kv.2 (le_refl _) (hkvs kv hkv).1).2.2 kv.1
        have hencnd : ((pairs.map (fun kv => p.serializeValueInObject kv.1 kv.2)).map
            Prod.fst).Nodup := by
          have hnd1 : pairs.Pairwise (fun a b => a.1 ≠ b.1) := List.pairwise_map.mp hnd
          have hnd2 : pairs.Pairwise (fun a b =>
              (p.serializeValueInObject a.1 a.2).1 ≠ (p.serializeValueInObject b.1 b.2).1) := by
            refine hnd1.imp_of_mem ?_
            intro a b ha hb hne he
            exact hne (encodedKey_inj hsep (hkvs a ha).2 (hkvs b hb).2 he)
          rw [List.map_map]
          exact List.pairwise_map.mpr hnd2
        have hmain : extFree (p._serialize (.vobj pairs)) = true := by
          rw [serialize_vobj hfind, jsObjectFromPairs_eq_self _ hencnd]
          refine extFree_vobj ?_
          intro kv hkv
          obtain ⟨kv0, hkv0, rfl⟩ := List.mem_map.mp hkv
          exact hpoint kv0 hkv0
        refine ⟨fun _ => hmain, ?_, fun k => ?_⟩
        · rw [serializeValueInArray_other hfind (fun _ h => Value.noConfusion h)]
          exact hmain
        · rw [serializeValueInObject_none hfind]
          exact hmain

/-! ### Correctness of the modelled external text codec -/

theorem jsonStringify_varr {α : Type} (items : List (Value α)) :
    jsonStringify (Value.varr items) =
      'a' :: (natUnary items.length ++ (items.map jsonStringify).flatten) := by
  rw [jsonStringify, List.attach_map_val items jsonStringify]

theorem jsonStringify_vobj {α : Type} (pairs : List (List Char × Value α)) :
    jsonStringify (Value.vobj pairs) =
      'o' :: (natUnary pairs.length
        ++ (pairs.map
              (fun kv => 'k' :: (natUnary kv.1.length ++ kv.1 ++ jsonStringify kv.2))).flatten) := by
  rw [jsonStringify,
    List.attach_map_val pairs (fun kv => 'k' :: (natUnary kv.1.length ++ kv.1 ++ jsonStringify kv.2))]

theorem readUnary_natUnary : ∀ (n : Nat) (r : List Char),
    readUnary (natUnary n ++ r) = some (n, r) := by
  intro n
  induction n with
  | zero => intro r; rfl
  | succ m ih =>
    intro r
    rw [natUnary, List.replicate_succ, List.cons_append, List.cons_append, readUnary]
    have : List.replicate m '*' ++ [';'] ++ r = natUnary m ++ r := by rw [natUnary]
    rw [this, ih r]

theorem natUnary_length (n : Nat) : (natUnary n).length = n + 1 := by
  rw [natUnary]
  simp

theorem jsonStringify_length_pos {α : Type} (t : Value α) :
    1 ≤ (jsonStringify t).length := by
  cases t with
  | vnull => simp [jsonStringify]
  | vbool b => cases b <;> simp [jsonStringify]
  | vnum m => simp [jsonStringify]
  | vstr s => simp [jsonStringify]
  | varr items => rw [jsonStringify_varr]; simp
  | vobj pairs => rw [jsonStringify_vobj]; simp
  | vext a => simp [jsonStringify]

theorem extFree_varr_elim {α : Type} {items : List (Value α)}
    (h : extFree (Value.varr items) = true) : ∀ x ∈ items, extFree x = true := by
  rw [extFree] at h
  intro x hx
  have := List.all_eq_true.mp h ⟨x, hx⟩ (List.mem_attach items ⟨x, hx⟩)
  simpa using this

theorem extFree_vobj_elim {α : Type} {pairs : List (List Char × Value α)}
    (h : extFree (Value.vobj pairs) = true) : ∀ kv ∈ pairs, extFree kv.2 = true := by
  rw [extFree] at h
  intro kv hkv
  have := List.all_eq_true.mp h ⟨kv, hkv⟩ (List.mem_attach pairs ⟨kv, hkv⟩)
  simpa using this

theorem parse_spec {α : Type} : ∀ fuel : Nat,
    (∀ (t : Value α) (r : List Char), extFree t = true →
        (jsonStringify t).length ≤ fuel →
        parseValue α fuel (jsonStringify t ++ r) = some (t, r))
    ∧ (∀ (items : List (Value α)) (r : List Char),
        (∀ x ∈ items, extFree x = true) →
        ((items.map jsonStringify).flatten).length < fuel →
        parseItems α fuel items.length ((items.map jsonStringify).flatten ++ r)
          = some (items, r))
    ∧ (∀ (pairs : List (List Char × Value α)) (r : List Char),
        (∀ kv ∈ pairs, extFree kv.2 = true) →
        ((pairs.map
            (fun kv => 'k' :: (natUnary kv.1.length ++ kv.1 ++ jsonStringify kv.2))).flatten).length
          < fuel →
        parsePairs α fuel pairs.length
          ((pairs.map
            (fun kv => 'k' :: (natUnary kv.1.length ++ kv.1 ++ jsonStringify kv.2))).flatten ++ r)
          = some (pairs, r)) := by
  intro fuel
  induction fuel using Nat.strong_induction_on with
  | _ fuel ih =>
    refine ⟨?_, ?_, ?_⟩
    · intro t r hext hlen
      obtain ⟨f, rfl⟩ : ∃ f, fuel = f + 1 := by
        cases fuel with
        | zero =>
          have := jsonStringify_length_pos t
          omega
        | succ f => exact ⟨f, rfl⟩
      cases t with
      | vnull => simp [jsonStringify, parseValue]
      | vbool b => cases b <;> simp [jsonStringify, parseValue]
      | vnum m =>
        cases m with
        | ofNat k =>
          rw [jsonStringify, intCode, List.cons_append, List.cons_append, parseValue,
            readUnary_natUnary]
          rfl
        | negSucc k =>
          rw [jsonStringify, intCode, List.cons_append, List.cons_append, parseValue,
            readUnary_natUnary]
          rfl
      | vstr s =>
        rw [jsonStringify, List.cons_append, List.append_assoc]
        simp only [parseValue]
        rw [readUnary_natUnary]
        simp [List.take_left, List.drop_left]
      | vext a => simp [extFree] at hext
      | varr items =>
        have hext2 := extFree_varr_elim hext
        rw [jsonStringify_varr] at hlen ⊢
        have hlen2 : (items.map jsonStringify).flatten.length < f := by
          simp only [List.length_cons, List.length_append, natUnary_length] at hlen
          omega
        rw [List.cons_append, List.append_assoc]
        simp only [parseValue]
        rw [readUnary_natUnary]
        show (do
            let d ← parseItems α f items.length ((items.map jsonStringify).flatten ++ r)
            some (Value.varr d.1, d.2)) = some (Value.varr items, r)
        rw [(ih f (by omega)).2.1 items r hext2 hlen2]
        rfl
      | vobj pairs =>
        have hext2 := extFree_vobj_elim hext
        rw [jsonStringify_vobj] at hlen ⊢
        have hlen2 : ((pairs.map
            (fun kv => 'k' :: (natUnary kv.1.length ++ kv.1
              ++ jsonStringify kv.2))).flatten).length < f := by
          simp only [List.length_cons, List.length_append, natUnary_length] at hlen
          omega
        rw [List.cons_append, List.append_assoc]
        simp only [parseValue]
        rw [readUnary_natUnary]
        show (do
            let d ← parsePairs α f pairs.length
              ((pairs.map
                (fun kv => 'k' :: (natUnary kv.1.length ++ kv.1
                  ++ jsonStringify kv.2))).flatten ++ r)
            some (Value.vobj d.1, d.2)) = some (Value.vobj pairs, r)
        rw [(ih f (by omega)).2.2 pairs r hext2 hlen2]
        rfl
    · intro items r hall hlen
      cases items with
      | nil => simp [parseItems]
      | cons x rest =>
        obtain ⟨f, rfl⟩ : ∃ f, fuel = f + 1 := by
          cases fuel with
          | zero => omega
          | succ f => exact ⟨f, rfl⟩
        have hx1 := jsonStringify_length_pos x
        simp only [List.map_cons, List.flatten_cons, List.length_append] at hlen ⊢
        have hlx : (jsonStringify x).length ≤ f := by omega
        have hlr : (rest.map jsonStringify).flatten.length < f := by omega
        rw [List.length_cons, List.append_assoc]
        simp only [parseItems]
        rw [(ih f (by omega)).1 x ((rest.map jsonStringify).flatten ++ r)
            (hall x (by simp)) hlx]
        show (do
            let d ← parseItems α f rest.length ((rest.map jsonStringify).flatten ++ r)
            some (x :: d.1, d.2)) = some (x :: rest, r)
        rw [(ih f (by omega)).2.1 rest r (fun y hy => hall y (by simp [hy])) hlr]
        rfl
    · intro pairs r hall hlen
      cases pairs with
      | nil => simp [parsePairs]
      | cons kv rest =>
        obtain ⟨f, rfl⟩ : ∃ f, fuel = f + 1 := by
          cases fuel with
          | zero => omega
          | succ f => exact ⟨f, rfl⟩
        have hx1 := jsonStringify_length_pos kv.2
        simp only [List.map_cons, List.flatten_cons, List.length_append, List.length_cons,
          natUnary_length] at hlen ⊢
        have hlx : (jsonStringify kv.2).length ≤ f := by omega
        have hlr : ((rest.map
            (fun kv2 => 'k' :: (natUnary kv2.1.length ++ kv2.1
              ++ jsonStringify kv2.2))).flatten).length < f := by omega
        rw [List.cons_append, List.cons_append, List.append_assoc, List.append_assoc,
          List.append_assoc]
        simp only [parsePairs]
        rw [readUnary_natUnary]
        show (if kv.1.length ≤ (kv.1 ++ (jsonStringify kv.2 ++ ((rest.map
            (fun kv2 => 'k' :: (natUnary kv2.1.length ++ kv2.1
              ++ jsonStringify kv2.2))).flatten ++ r))).length then do
            let d ← parseValue α f ((kv.1 ++ (jsonStringify kv.2 ++ ((rest.map
              (fun kv2 => 'k' :: (natUnary kv2.1.length ++ kv2.1
                ++ jsonStringify kv2.2))).flatten ++ r))).drop kv.1.length)
            let d2 ← parsePairs α f rest.length d.2
            some (((kv.1 ++ (jsonStringify kv.2 ++ ((rest.map
              (fun kv2 => 'k' :: (natUnary kv2.1.length ++ kv2.1
                ++ jsonStringify kv2.2))).flatten ++ r))).take kv.1.length, d.1) :: d2.1, d2.2)
          else none) = some (kv :: rest, r)
        rw [if_pos (by simp), List.take_left, List.drop_left,
          (ih f (by omega)).1 kv.2 _ (hall kv (by simp)) hlx]
        show (do
            let d2 ← parsePairs α f rest.length ((rest.map
              (fun kv2 => 'k' :: (natUnary kv2.1.length ++ kv2.1
                ++ jsonStringify kv2.2))).flatten ++ r)
            some ((kv.1, kv.2) :: d2.1, d2.2)) = some (kv :: rest, r)
        rw [(ih f (by omega)).2.2 rest r (fun y hy => hall y (by simp [hy])) hlr]
        rfl

theorem jsonParseTop_stringify {α : Type} (t : Value α) (hext : extFree t = true) :
    jsonParseTop α (jsonStringify t) = some t := by
  rw [jsonParseTop]
  have h := (parse_spec ((jsonStringify t).length)).1 t [] hext (le_refl _)
  rw [List.append_nil] at h
  rw [h]

/-! ### Introduction lemmas for `safeValue` -/

theorem safeValue_of_found {α : Type} {p : PluggableJSON α} {v : Value α} {s : Serializer α}
    (h : p.findSerializerForValue v = some s) : safeValue p v = true := by
  rw [safeValue.eq_def, h]
  rfl

theorem safeValue_scalar {α : Type} (p : PluggableJSON α) {v : Value α}
    (h1 : ∀ a : α, v ≠ .vext a)
    (h2 : ∀ items : List (Value α), v ≠ .varr items)
    (h3 : ∀ pairs : List (List Char × Value α), v ≠ .vobj pairs) :
    safeValue p v = true := by
  rw [safeValue.eq_def]
  by_cases hf : (p.findSerializerForValue v).isSome = true
  · rw [if_pos hf]
  · rw [if_neg hf]
    cases v with
    | vext a => exact absurd rfl (h1 a)
    | varr items => exact absurd rfl (h2 items)
    | vobj pairs => exact absurd rfl (h3 pairs)
    | _ => rfl

theorem safeValue_varr_intro {α : Type} {p : PluggableJSON α} {items : List (Value α)}
    (h : ∀ x ∈ items, safeValue p x = true) : safeValue p (.varr items) = true := by
  rw [safeValue.eq_def]
  by_cases hf : (p.findSerializerForValue (Value.varr items)).isSome = true
  · rw [if_pos hf]
  · rw [if_neg hf]
    rw [List.all_eq_true]
    intro x _
    exact h x.1 x.2

theorem safeValue_vobj_intro {α : Type} {p : PluggableJSON α}
    {pairs : List (List Char × Value α)} (hnd : (pairs.map Prod.fst).Nodup)
    (h : ∀ kv ∈ pairs, safeValue p kv.2 = true ∧
      ((p.findSerializerForValue kv.2).isSome = true → keyOKB kv.1 = true)) :
    safeValue p (.vobj pairs) = true := by
  rw [safeValue.eq_def]
  by_cases hf : (p.findSerializerForValue (Value.vobj pairs)).isSome = true
  · rw [if_pos hf]
  · rw [if_neg hf]
    rw [Bool.and_eq_true, List.all_eq_true]
    refine ⟨by simpa using hnd, ?_⟩
    intro kv _
    rw [Bool.and_eq_true, Bool.or_eq_true]
    refine ⟨(h kv.1 kv.2).1, ?_⟩
    cases hk : (p.findSerializerForValue kv.1.2).isSome with
    | false => exact Or.inl rfl
    | true => exact Or.inr ((h kv.1 kv.2).2 hk)

/-- Public round trip on the text path (used by the claim about
`deserialize(serialize(v))`). -/
theorem deserialize_serialize {α : Type} (p : PluggableJSON α)
    (hsep : p._separator ≠ ESCAPE_CHAR) (hreg : RegistryOK p) (v : Value α)
    (hsafe : safeValue p v = true) (htop : p.findSerializerForValue v = none) :
    p.deserialize (p.serialize v false) = .ok v := by
  have hext : extFree (p._serialize v) = true :=
    (extFree_serialize p hsep (2 * v.depth + 2) v (le_refl _) hsafe).1 htop
  have hrt : p._deserialize (p._serialize v) none = .ok v :=
    (roundtrip_main p hsep hreg (2 * v.depth + 2) v (le_refl _) hsafe).1 htop
  rw [PluggableJSON.serialize]
  simp only [Bool.false_eq_true, if_false]
  rw [PluggableJSON.deserialize.eq_def]
  show (match jsonParseTop α (jsonStringify (p._serialize v)) with
    | some tree => p._deserialize tree none
    | none => Except.error PJError.jsonParseError) = Except.ok v
  rw [jsonParseTop_stringify _ hext]
  show p._deserialize (p._serialize v) none = Except.ok v
  exact hrt

theorem pDur_registryOK : RegistryOK pDur := by
  refine ⟨by simp [pDur, durationLike], ?_⟩
  intro s hs
  rw [show pDur._serializers = [durationLike] from rfl] at hs
  rw [List.mem_singleton] at hs
  subst hs
  refine ⟨by simp [durationLike], by simp [durationLike, ESCAPE_CHAR], ?_⟩
  intro v hv
  cases v <;> simp [durationLike] at hv ⊢

/-! ### The claims -/

/-- Claim C6 (confirmed): for every separator and every string `s`,
`unescape(escape(s)) = s`, where `_escapeSeparators` replaces each occurrence
of the separator by the escape character followed by the separator (and
nothing else — the escape character itself is never escaped), and
`_unescapeSeparators` replaces each escape-separator pair by the separator,
left to right; the law holds in particular when `s` already contains the raw
two-character sequence escape-separator. -/
theorem c6_unescape_escape_law :
    ∀ (sep : Char) (s : List Char),
      _unescapeSeparators sep (_escapeSeparators sep s) = s :=
  fun sep s => unescape_escape sep s

/-- Claim C2 counterexample: a value recognized by a registered serializer is
encoded in array position as `escape(type) + SEP + escape(payload)` with no
leading separator — here the concrete encoding is the string `d:10m`, whose
first character is `d`, not the separator — so the claimed discriminator
("a tagged encoding begins with the separator") is false on this code. -/
theorem c2_no_leading_separator_counterexample :
    pDur.serializeValueInArray (.vext ()) = .vstr ['d', ':', '1', '0', 'm']
    ∧ (['d', ':', '1', '0', 'm'] : List Char).head? ≠ some pDur._separator := by
  constructor
  · rw [serializeValueInArray_found
      (show pDur.findSerializerForValue (.vext ()) = some durationLike from rfl)]
    rfl
  · intro h
    rw [show pDur._separator = ':' from rfl] at h
    simp at h

/-- Claim C2 (amended): in array position a recognized value is encoded as the
single string `escape(type) + SEP + escape(payload)` (no leading separator);
at top level it becomes the bare payload; in map position the tag goes into
the key (`escape(key) + SEP + escape(type)`) and the value is the bare
payload; a plain string in array position is encoded as its escaped literal.
The discriminator between the two forms is not a leading separator but whether
the string splits at a live separator: an escaped literal always yields
exactly one component, while a tagged encoding whose type is non-empty and
does not end in the escape character yields exactly two. -/
theorem c2_tagging_amended {α : Type} (p : PluggableJSON α)
    (hsep : p._separator ≠ ESCAPE_CHAR) :
    (∀ (v : Value α) (s : Serializer α), p.findSerializerForValue v = some s →
      p.serializeValueInArray v =
        .vstr (_escapeSeparators p._separator s.type
          ++ p._separator :: _escapeSeparators p._separator (s.serialize v))
      ∧ p._serialize v = .vstr (s.serialize v)
      ∧ ∀ k : List Char, p.serializeValueInObject k v =
          (_escapeSeparators p._separator k
            ++ p._separator :: _escapeSeparators p._separator s.type,
           .vstr (s.serialize v)))
    ∧ (∀ s0 : List Char, p.findSerializerForValue (.vstr s0) = none →
        p.serializeValueInArray (.vstr s0) = .vstr (_escapeSeparators p._separator s0))
    ∧ (∀ s0 : List Char,
        (p._getComponentsFromSerializedString (_escapeSeparators p._separator s0)).length = 1)
    ∧ (∀ t v0 : List Char, t ≠ [] → t.getLast? ≠ some ESCAPE_CHAR →
        (p._getComponentsFromSerializedString
          (_escapeSeparators p._separator t
            ++ p._separator :: _escapeSeparators p._separator v0)).length = 2) := by
  refine ⟨?_, ?_, ?_, ?_⟩
  · intro v s h
    exact ⟨serializeValueInArray_found h, serialize_found h,
      fun k => serializeValueInObject_found h⟩
  · intro s0 h
    exact serializeValueInArray_vstr h
  · intro s0
    rw [getComponents_escape p hsep s0]
    rfl
  · intro t v0 h1 h2
    rw [getComponents_tagged p hsep t h1 h2 v0]
    rfl

/-- Witness for C2: the escaped literal `a:b` yields exactly one component
under the default separator. -/
theorem c2_tagging_witness :
    (pDur._getComponentsFromSerializedString
      (_escapeSeparators pDur._separator ['a', ':', 'b'])).length = 1 :=
  (c2_tagging_amended pDur (by decide)).2.2.1 ['a', ':', 'b']

/-- Claim C3 counterexample: keys are escaped by `_serialize` — the object
with the single key `a:b` is encoded with the different key `a^:b`, so encode
does not return a map with exactly the same keys. -/
theorem c3_keys_escaped_counterexample :
    pEmpty._serialize (.vobj [(['a', ':', 'b'], .vnull)])
      = .vobj [(['a', '^', ':', 'b'], .vnull)]
    ∧ (['a', '^', ':', 'b'] : List Char) ≠ ['a', ':', 'b'] := by
  constructor
  · have h1 : pEmpty.serializeValueInObject ['a', ':', 'b'] .vnull
        = (['a', '^', ':', 'b'], .vnull) := by
      rw [serializeValueInObject_none
        (show pEmpty.findSerializerForValue .vnull = none from rfl),
        serialize_other (show pEmpty.findSerializerForValue .vnull = none from rfl)
          (fun _ h => Value.noConfusion h) (fun _ h => Value.noConfusion h)]
      rfl
    rw [serialize_vobj (show pEmpty.findSerializerForValue
        (.vobj [(['a', ':', 'b'], .vnull)]) = none from rfl)]
    rw [List.map_singleton, h1]
    rfl
  · decide

/-- Claim C3 (amended): object keys are escaped rather than untouched — a
pair with an unrecognized value is stored under `escape(key)` and a pair with
a recognized value under `escape(key) + SEP + escape(type)` (the tag lives in
the key, not the value); decode does not return identical keys but recovers
the original key by unescaping the first component: unconditionally for
escaped plain keys, and for tagged keys whenever the key is non-empty and
does not end in the escape character. -/
theorem c3_keys_amended {α : Type} (p : PluggableJSON α)
    (hsep : p._separator ≠ ESCAPE_CHAR) :
    (∀ (k : List Char) (v : Value α), p.findSerializerForValue v = none →
      (p.serializeValueInObject k v).1 = _escapeSeparators p._separator k)
    ∧ (∀ (k : List Char) (v : Value α) (s : Serializer α),
        p.findSerializerForValue v = some s →
        (p.serializeValueInObject k v).1 =
          _escapeSeparators p._separator k
            ++ p._separator :: _escapeSeparators p._separator s.type)
    ∧ (∀ (k : List Char) (w : Value α),
        p.deserializeValueInObject (_escapeSeparators p._separator k) w =
          (p._deserialize w none).map (fun r => (k, r)))
    ∧ (∀ (k t : List Char) (w : Value α), k ≠ [] → k.getLast? ≠ some ESCAPE_CHAR →
        p.deserializeValueInObject
          (_escapeSeparators p._separator k
            ++ p._separator :: _escapeSeparators p._separator t) w =
          (p._deserialize w (some t)).map (fun r => (k, r))) := by
  refine ⟨?_, ?_, ?_, ?_⟩
  · intro k v h
    rw [serializeValueInObject_none h]
  · intro k v s h
    rw [serializeValueInObject_found h]
  · intro k w
    simp only [PluggableJSON.deserializeValueInObject.eq_def]
    rw [getComponents_escape p hsep k]
  · intro k t w h1 h2
    simp only [PluggableJSON.deserializeValueInObject.eq_def]
    rw [getComponents_tagged p hsep k h1 h2 t]

/-- Witness for C3: decoding the escaped key `x` pairs the key `x` with the
plainly deserialized value. -/
theorem c3_keys_witness :
    pEmpty.deserializeValueInObject
        (_escapeSeparators pEmpty._separator ['x']) .vnull =
      (pEmpty._deserialize .vnull none).map (fun r => (['x'], r)) :=
  (c3_keys_amended pEmpty (by decide)).2.2.1 ['x'] .vnull

/-- Claim C4 counterexample: with the array-index type names `1` and `0`
registered in that order and both serializers claiming the value, lookup
returns the `0`-typed serializer — the one registered last — because
`_.values` enumerates the registry object in ECMAScript own-property order,
which sorts array-index keys numerically ahead of insertion order.  So
"first match in registration order, for all descriptor type strings" is
false on this code. -/
theorem c4_numeric_type_counterexample :
    pNum._serializers.head? = some serOne
    ∧ serOne.isSerializable .vnull = true
    ∧ pNum.findSerializerForValue .vnull = some serZero
    ∧ serZero.type ≠ serOne.type := by
  refine ⟨rfl, rfl, rfl, by decide⟩

/-- Claim C4 (amended): whenever no registered type name is an ECMAScript
array-index string (the usual case — e.g. any non-numeric name), the
enumeration order of the registry coincides with registration order, and
lookup is exactly the first serializer, in registration order, whose
`isSerializable` accepts the value. -/
theorem c4_first_match_amended {α : Type} (p : PluggableJSON α)
    (hidx : ∀ s ∈ p._serializers, arrayIndexOf s.type = none) :
    ∀ v : Value α, p.findSerializerForValue v =
      p._serializers.find? (fun s => s.isSerializable v) := by
  intro v
  rw [PluggableJSON.findSerializerForValue, jsOwnValues_of_no_index hidx]

/-- Witness for C4: with the alphabetic type names `a`, `b` both claiming a
value, lookup is the plain first-match scan over the registration list. -/
theorem c4_first_match_witness :
    pAlpha.findSerializerForValue .vnull =
      pAlpha._serializers.find? (fun s => s.isSerializable .vnull) :=
  c4_first_match_amended pAlpha
    (by
      intro s hs
      rw [show pAlpha._serializers = [serA, serB] from rfl] at hs
      rcases List.mem_cons.mp hs with rfl | hs2
      · rfl
      · rcases List.mem_cons.mp hs2 with rfl | hs3
        · rfl
        · cases hs3)
    .vnull

/-- Claim C5 counterexample: decoding the array string `t:a:b` (two live
separators, `t` registered with an identity `deserialize`) hands the
serializer only the segment `a` between the first and second live separators
— the suffix `b` is dropped — instead of the full remainder `a:b` the claim
promises. -/
theorem c5_payload_truncated_counterexample :
    pT.deserializeValueInArray (.vstr ['t', ':', 'a', ':', 'b']) = .ok (.vstr ['a'])
    ∧ pT.deserializeValueInArray (.vstr ['t', ':', 'a', ':', 'b'])
        ≠ .ok (.vstr ['a', ':', 'b']) := by
  have h : pT.deserializeValueInArray (.vstr ['t', ':', 'a', ':', 'b'])
      = .ok (.vstr ['a']) := by
    rw [deserializeValueInArray_vstr,
      show pT._getComponentsFromSerializedString ['t', ':', 'a', ':', 'b']
        = [['t'], ['a'], ['b']] from rfl]
    show pT._deserialize (.vstr ['a']) (some ['t']) = .ok (.vstr ['a'])
    rw [deserialize_typed_found (show pT.lookupByType ['t'] = some serT from rfl)]
    rfl
  refine ⟨h, ?_⟩
  rw [h]
  intro hbad
  have := Except.ok.inj hbad
  simp at this

/-- Claim C5 (amended): the boundary between tag and payload is indeed the
first live separator and the tag segment is everything before it; but the
payload segment is only the text strictly between the first and the second
live separators — when a later live separator occurs, everything after it is
discarded rather than kept in the payload.  Concretely, a well-formed tagged
string splits as `[tag, payload]`, and a string with a second live separator
splits as `[tag, middle, rest]` of which decode uses only `tag` and
`middle`. -/
theorem c5_boundary_amended {α : Type} (p : PluggableJSON α)
    (hsep : p._separator ≠ ESCAPE_CHAR) :
    (∀ t v0 : List Char, t ≠ [] → t.getLast? ≠ some ESCAPE_CHAR →
      p._getComponentsFromSerializedString
        (_escapeSeparators p._separator t
          ++ p._separator :: _escapeSeparators p._separator v0) = [t, v0])
    ∧ (∀ t m v0 : List Char, t ≠ [] → t.getLast? ≠ some ESCAPE_CHAR →
        m ≠ [] → m.getLast? ≠ some ESCAPE_CHAR →
        p._getComponentsFromSerializedString
          (_escapeSeparators p._separator t
            ++ p._separator :: (_escapeSeparators p._separator m
              ++ p._separator :: _escapeSeparators p._separator v0)) = [t, m, v0]
        ∧ p.deserializeValueInArray
            (.vstr (_escapeSeparators p._separator t
              ++ p._separator :: (_escapeSeparators p._separator m
                ++ p._separator :: _escapeSeparators p._separator v0)))
          = p._deserialize (.vstr m) (some t)) := by
  refine ⟨?_, ?_⟩
  · intro t v0 h1 h2
    exact getComponents_tagged p hsep t h1 h2 v0
  · intro t m v0 h1 h2 h3 h4
    have hc := getComponents_tagged_two p hsep t m h1 h2 h3 h4 v0
    refine ⟨hc, ?_⟩
    rw [deserializeValueInArray_vstr, hc]

/-- Witness for C5: splitting the tagged string built from tag `t`, middle
`a` and rest `b` produces the three components, of which decode uses only the
first two. -/
theorem c5_boundary_witness :
    pT._getComponentsFromSerializedString
        (_escapeSeparators pT._separator ['t']
          ++ pT._separator :: (_escapeSeparators pT._separator ['a']
            ++ pT._separator :: _escapeSeparators pT._separator ['b'])) = [['t'], ['a'], ['b']]
    ∧ pT.deserializeValueInArray
        (.vstr (_escapeSeparators pT._separator ['t']
          ++ pT._separator :: (_escapeSeparators pT._separator ['a']
            ++ pT._separator :: _escapeSeparators pT._separator ['b'])))
      = pT._deserialize (.vstr ['a']) (some ['t']) :=
  (c5_boundary_amended pT (by decide)).2 ['t'] ['a'] ['b']
    (by decide) (by decide) (by decide) (by decide)

/-- Claim C7 counterexample: the string `:abc` begins with the separator and
contains no live separator after it, yet decode does not fail — there is no
`FormatError` anywhere in this code — it silently returns the plain string
itself. -/
theorem c7_no_format_error_counterexample :
    pEmpty.deserializeValueInArray (.vstr [':', 'a', 'b', 'c'])
      = .ok (.vstr [':', 'a', 'b', 'c']) := by
  rw [deserializeValueInArray_vstr,
    show pEmpty._getComponentsFromSerializedString [':', 'a', 'b', 'c']
      = [[':', 'a', 'b', 'c']] from rfl]

/-- Claim C7 (amended): a string with no live separator — in particular one
that begins with the separator and has no live separator after it — is never
rejected: decode returns it, unescaped, as a plain string value.  The code
has no malformed-tagged-string failure at all. -/
theorem c7_plain_fallback_amended {α : Type} (p : PluggableJSON α) :
    ∀ s : List Char, s.head? = some p._separator →
      hasLivePair p._separator s = false →
      p.deserializeValueInArray (.vstr s)
        = .ok (.vstr (_unescapeSeparators p._separator s)) := by
  intro s _ h2
  rw [deserializeValueInArray_vstr, PluggableJSON._getComponentsFromSerializedString,
    split_of_no_live s h2 []]
  rw [List.nil_append, List.map_cons, List.map_nil]

/-- Witness for C7: the string `:x^:y` begins with the separator, has no live
separator, and decodes silently to its unescaped self `:x:y`. -/
theorem c7_plain_fallback_witness :
    ([':', 'x', '^', ':', 'y'] : List Char).head? = some pEmpty._separator
    ∧ hasLivePair pEmpty._separator [':', 'x', '^', ':', 'y'] = false
    ∧ pEmpty.deserializeValueInArray (.vstr [':', 'x', '^', ':', 'y'])
        = .ok (.vstr (_unescapeSeparators pEmpty._separator [':', 'x', '^', ':', 'y'])) :=
  ⟨by decide, by decide,
    c7_plain_fallback_amended pEmpty [':', 'x', '^', ':', 'y'] (by decide) (by decide)⟩

/-- Claim C8 counterexample: decoding the tagged strings `a:x` and `b:x`
against an empty registry produces the same error value — the `TypeError`
thrown by reading `.deserialize` of `undefined` — for both tags, so the
failure cannot be an `UnknownTypeError` naming the offending tag. -/
theorem c8_error_tag_counterexample :
    pEmpty.deserializeValueInArray (.vstr ['a', ':', 'x'])
      = .error .typeErrorDeserializeOfUndefined
    ∧ pEmpty.deserializeValueInArray (.vstr ['b', ':', 'x'])
      = .error .typeErrorDeserializeOfUndefined := by
  constructor
  · rw [deserializeValueInArray_vstr,
      show pEmpty._getComponentsFromSerializedString ['a', ':', 'x']
        = [['a'], ['x']] from rfl]
    show pEmpty._deserialize (.vstr ['x']) (some ['a'])
      = .error .typeErrorDeserializeOfUndefined
    exact deserialize_typed_missing (show pEmpty.lookupByType ['a'] = none from rfl) _
  · rw [deserializeValueInArray_vstr,
      show pEmpty._getComponentsFromSerializedString ['b', ':', 'x']
        = [['b'], ['x']] from rfl]
    show pEmpty._deserialize (.vstr ['x']) (some ['b'])
      = .error .typeErrorDeserializeOfUndefined
    exact deserialize_typed_missing (show pEmpty.lookupByType ['b'] = none from rfl) _

/-- Claim C8 (amended): decoding with a well-formed non-empty tag that
matches no registered type does fail — it never falls back to returning the
payload as a plain value — but the failure is the `TypeError` from reading
`.deserialize` of `undefined`, which does not carry the tag.  An empty
extracted tag is JavaScript-falsy and is treated as no tag at all: the value
is traversed plainly even though a tag was extracted. -/
theorem c8_unknown_type_amended {α : Type} (p : PluggableJSON α) :
    (∀ (c : Char) (t : List Char) (w : Value α), p.lookupByType (c :: t) = none →
      p._deserialize w (some (c :: t)) = .error .typeErrorDeserializeOfUndefined)
    ∧ (∀ w : Value α, p._deserialize w (some []) = p._deserialize w none) := by
  constructor
  · intro c t w h
    exact deserialize_typed_missing h w
  · intro w
    rw [PluggableJSON._deserialize.eq_def, PluggableJSON._deserialize.eq_def]

/-- Witness for C8: an unknown tag `q` over the empty registry yields the
`TypeError`, not a plain value. -/
theorem c8_unknown_type_witness :
    pEmpty.lookupByType ['q'] = none
    ∧ pEmpty._deserialize (.vstr ['x']) (some ['q'])
        = .error .typeErrorDeserializeOfUndefined :=
  ⟨rfl, (c8_unknown_type_amended pEmpty).1 'q' [] (.vstr ['x']) rfl⟩

/-- Claim C9 counterexample: a descriptor that both shares a type with an
earlier complete descriptor and is missing required capabilities makes
construction fail with the duplicate-type error, not the missing-fields
error the claim promises — the duplicate check runs first for each
descriptor. -/
theorem c9_duplicate_checked_first_counterexample :
    PluggableJSON.construct [dComplete, dDupIncomplete] ':'
      = .error (.configDuplicateType (some ['x']))
    ∧ PJError.configDuplicateType (some ['x']) ≠ .configMissingProperties 1 := by
  exact ⟨rfl, by decide⟩

/-- Claim C9 (amended): validation runs per descriptor, in order, checking
the duplicate type first and the required capabilities second — so a
descriptor that shares a type with an earlier complete one fails with the
duplicate-type error even when it is also missing fields; a first descriptor
missing any capability fails with an error that carries only the descriptor
index (the message lists the constant set of all required property names, not
the absent ones, so descriptors with different missing fields produce the
same error); and a validation failure makes construction itself return that
error — no registry is produced. -/
theorem c9_validation_amended {α : Type} :
    (∀ (d1 d2 : SerializerDescriptor α) (ds : List (SerializerDescriptor α)),
      d1.isComplete = true → d2.type = d1.type →
      _validateSerializers (d1 :: d2 :: ds) = .error (.configDuplicateType d1.type))
    ∧ (∀ (d : SerializerDescriptor α) (ds : List (SerializerDescriptor α)),
        d.isComplete = false →
        _validateSerializers (d :: ds) = .error (.configMissingProperties 0))
    ∧ (∀ (ds : List (SerializerDescriptor α)) (sep : Char) (e : PJError),
        _validateSerializers ds = .error e →
        PluggableJSON.construct ds sep = .error e) := by
  refine ⟨?_, ?_, ?_⟩
  · intro d1 d2 ds h1 h2
    rw [_validateSerializers, validateLoop, if_neg (List.not_mem_nil d1.type),
      if_neg (by rw [h1]; simp), validateLoop, if_pos (by rw [h2]; exact List.mem_cons_self _ _),
      h2]
  · intro d ds h
    rw [_validateSerializers, validateLoop, if_neg (List.not_mem_nil d.type),
      if_pos (by rw [h]; rfl)]
  · intro ds sep e h
    rw [PluggableJSON.construct, h]
    rfl

/-- Witness for C9: a descriptor missing only `serialize` and a descriptor
missing only `deserialize` both fail with the same index-only error. -/
theorem c9_validation_witness :
    _validateSerializers [dMissingSerialize] = .error (.configMissingProperties 0)
    ∧ _validateSerializers [dMissingDeserialize] = .error (.configMissingProperties 0)
    ∧ PluggableJSON.construct [dMissingSerialize] ':'
        = .error (.configMissingProperties 0) :=
  ⟨(@c9_validation_amended Unit).2.1 dMissingSerialize [] rfl,
   (@c9_validation_amended Unit).2.1 dMissingDeserialize [] rfl,
   (@c9_validation_amended Unit).2.2 [dMissingSerialize] ':' (.configMissingProperties 0)
     ((@c9_validation_amended Unit).2.1 dMissingSerialize [] rfl)⟩

/-- Deserializing the text form of a foreign-free tree hands the parsed tree
to `_deserialize`. -/
theorem deserialize_vstr_text {α : Type} (p : PluggableJSON α) (t : Value α)
    (hext : extFree t = true) :
    p.deserialize (.vstr (jsonStringify t)) = p._deserialize t none := by
  rw [PluggableJSON.deserialize.eq_def]
  show (match jsonParseTop α (jsonStringify t) with
    | some tree => p._deserialize tree none
    | none => Except.error PJError.jsonParseError) = p._deserialize t none
  rw [jsonParseTop_stringify t hext]

/-- Claim C1 counterexample: a top-level value recognized by a serializer
does not round-trip — `_serialize` returns the bare payload with no tag, so
deserializing gives the payload string `10m` back, not the original value. -/
theorem c1_top_level_counterexample :
    pDur.deserialize (pDur.serialize (.vext ()) false) = .ok (.vstr ['1', '0', 'm'])
    ∧ pDur.deserialize (pDur.serialize (.vext ()) false) ≠ .ok (.vext ()) := by
  have hA : pDur.serialize (.vext ()) false
      = .vstr (jsonStringify (Value.vstr ['1', '0', 'm'] : Value Unit)) := by
    rw [PluggableJSON.serialize]
    simp only [Bool.false_eq_true, if_false]
    rw [serialize_found
      (show pDur.findSerializerForValue (.vext ()) = some durationLike from rfl)]
    rfl
  have h : pDur.deserialize (pDur.serialize (.vext ()) false)
      = .ok (.vstr ['1', '0', 'm']) := by
    rw [hA, deserialize_vstr_text pDur (.vstr ['1', '0', 'm']) (extFree_vstr _)]
    exact deserialize_plain_scalar pDur (fun _ h => Value.noConfusion h)
      (fun _ h => Value.noConfusion h) none (Or.inl rfl)
  refine ⟨h, ?_⟩
  rw [h]
  intro hbad
  exact Value.noConfusion (Except.ok.inj hbad)

/-- Claim C1 (amended): `deserialize(serialize(v))` reproduces `v` for every
value `v` provided that (i) the separator is not the escape character `^`,
(ii) the registry is well-behaved — distinct type names, none empty or
ending in `^`, and each serializer's `deserialize` a left inverse of its
`serialize` on recognized values, (iii) every foreign value inside `v` is
recognized, object key lists are duplicate-free, and a key whose value is
recognized is non-empty and does not end in `^` (`safeValue`), and (iv) `v`
itself is not recognized by any serializer — a recognized value at top level
is emitted as its bare payload and does not round-trip (see the
counterexample).  Strings, keys and payloads containing the separator or the
escape character are covered: conditions (i)–(iii) do not restrict their
content. -/
theorem c1_roundtrip_amended {α : Type} (p : PluggableJSON α)
    (hsep : p._separator ≠ ESCAPE_CHAR) (hreg : RegistryOK p) (v : Value α)
    (hsafe : safeValue p v = true) (htop : p.findSerializerForValue v = none) :
    p.deserialize (p.serialize v false) = .ok v :=
  deserialize_serialize p hsep hreg v hsafe htop

/-- Witness for C1: an object holding a recognized foreign value under the
separator-containing key `k:1` and a plain string `x:y` under the key `p`
round-trips through the public text path. -/
theorem c1_roundtrip_witness :
    safeValue pDur
      (.vobj [(['k', ':', '1'], .vext ()), (['p'], .vstr ['x', ':', 'y'])]) = true
    ∧ pDur.deserialize (pDur.serialize
        (.vobj [(['k', ':', '1'], .vext ()), (['p'], .vstr ['x', ':', 'y'])]) false)
      = .ok (.vobj [(['k', ':', '1'], .vext ()), (['p'], .vstr ['x', ':', 'y'])]) := by
  have hsafe : safeValue pDur
      (.vobj [(['k', ':', '1'], .vext ()), (['p'], .vstr ['x', ':', 'y'])]) = true := by
    refine safeValue_vobj_intro (by decide) ?_
    intro kv hkv
    rcases List.mem_cons.mp hkv with rfl | hkv2
    · exact ⟨safeValue_of_found
        (show pDur.findSerializerForValue (.vext ()) = some durationLike from rfl),
        fun _ => by decide⟩
    · rcases List.mem_cons.mp hkv2 with rfl | hkv3
      · refine ⟨safeValue_scalar pDur (fun _ h => Value.noConfusion h)
          (fun _ h => Value.noConfusion h) (fun _ h => Value.noConfusion h), ?_⟩
        intro habs
        rw [show pDur.findSerializerForValue (.vstr ['x', ':', 'y']) = none from rfl] at habs
        exact Bool.noConfusion habs
      · cases hkv3
  exact ⟨hsafe, c1_roundtrip_amended pDur (by decide) pDur_registryOK _ hsafe rfl⟩

/-- Deserializing a string that the external codec cannot parse fails with
the parse error. -/
theorem deserialize_vstr_badtext {α : Type} (p : PluggableJSON α) (s : List Char)
    (h : jsonParseTop α s = none) :
    p.deserialize (.vstr s) = .error .jsonParseError := by
  rw [PluggableJSON.deserialize.eq_def]
  show (match jsonParseTop α s with
    | some tree => p._deserialize tree none
    | none => Except.error PJError.jsonParseError) = .error .jsonParseError
  rw [h]

/-- Claim C10 counterexample: when a registered serializer recognizes the
top-level array itself, the two public paths disagree — `serialize` without
`toObject` wraps the bare payload `x` in text, so deserializing returns the
string `x`, while `serialize(…, {toObject: true})` returns the bare string
`x` itself, which `deserialize` feeds to `JSON.parse`; `x` is not valid
text, so that path throws a parse error instead. -/
theorem c10_paths_counterexample :
    pArr.deserialize (pArr.serialize (.varr []) false) = .ok (.vstr ['x'])
    ∧ pArr.deserialize (pArr.serialize (.varr []) true) = .error .jsonParseError := by
  have hfind : pArr.findSerializerForValue (.varr []) = some serArrClaim := rfl
  constructor
  · have hA : pArr.serialize (.varr []) false
        = .vstr (jsonStringify (Value.vstr ['x'] : Value Unit)) := by
      rw [PluggableJSON.serialize]
      simp only [Bool.false_eq_true, if_false]
      rw [serialize_found hfind]
      rfl
    rw [hA, deserialize_vstr_text pArr (.vstr ['x']) (extFree_vstr _)]
    exact deserialize_plain_scalar pArr (fun _ h => Value.noConfusion h)
      (fun _ h => Value.noConfusion h) none (Or.inl rfl)
  · have hB : pArr.serialize (.varr []) true = .vstr ['x'] := by
      rw [PluggableJSON.serialize, if_pos rfl, serialize_found hfind]
      rfl
    rw [hB]
    refine deserialize_vstr_badtext pArr ['x'] ?_
    simp [jsonParseTop, parseValue]

/-- Claim C10 (amended): for a sequence or map `v` that is not itself
recognized by any serializer, and whose serialized tree is foreign-free
(every foreign value inside `v` is recognized, so the tree has a text form),
the two public paths agree: `deserialize(serialize(v))` equals
`deserialize(serialize(v, {toObject: true}))` — with `toObject` only the
final text stringification is skipped and `deserialize` treats the
already-parsed tree identically.  No condition on the separator, the
registry, or key shapes is needed: both paths compute the very same
`_deserialize(_serialize(v))`, whatever that yields.  When a serializer does
recognize `v` itself, the `toObject` result is a bare payload string and the
paths diverge (see the counterexample). -/
theorem c10_paths_amended {α : Type} (p : PluggableJSON α) (v : Value α)
    (htop : p.findSerializerForValue v = none)
    (hshape : (∃ items, v = Value.varr items) ∨ (∃ pairs, v = Value.vobj pairs))
    (hext : extFree (p._serialize v) = true) :
    p.deserialize (p.serialize v false) = p.deserialize (p.serialize v true) := by
  have hA : p.serialize v false = .vstr (jsonStringify (p._serialize v)) := by
    rw [PluggableJSON.serialize]
    simp only [Bool.false_eq_true, if_false]
  have hB : p.serialize v true = p._serialize v := by
    rw [PluggableJSON.serialize, if_pos rfl]
  rw [hA, hB, deserialize_vstr_text p (p._serialize v) hext]
  rcases hshape with ⟨items, rfl⟩ | ⟨pairs, rfl⟩
  · rw [serialize_varr htop, PluggableJSON.deserialize.eq_def]
  · rw [serialize_vobj htop, PluggableJSON.deserialize.eq_def]

/-- Witness for C10: an array holding one recognized foreign value takes the
same result on the text path and on the `toObject` path. -/
theorem c10_paths_witness :
    pDur.deserialize (pDur.serialize (.varr [.vext ()]) false)
      = pDur.deserialize (pDur.serialize (.varr [.vext ()]) true) := by
  have hser : pDur._serialize (.varr [.vext ()])
      = .varr [.vstr ['d', ':', '1', '0', 'm']] := by
    rw [serialize_varr
      (show pDur.findSerializerForValue (.varr [.vext ()]) = none from rfl),
      List.map_singleton,
      serializeValueInArray_found
        (show pDur.findSerializerForValue (.vext ()) = some durationLike from rfl)]
    rfl
  have hext : extFree (pDur._serialize (.varr [.vext ()])) = true := by
    rw [hser]
    refine extFree_varr ?_
    intro x hx
    rcases List.mem_cons.mp hx with rfl | h2
    · exact extFree_vstr _
    · cases h2
  exact c10_paths_amended pDur (.varr [.vext ()]) rfl (Or.inl ⟨[.vext ()], rfl⟩) hext
